import Mathlib

/-!
Shallow embedding of the Ontario Certificate Tool core logic
(name normalization, reference table parsing, date formatting, provider
resolution, export formatting, and the batch pipeline), together with
theorems settling the specification claims.

Strings from the source program are modelled as Lean `String`s, with the
character-level algorithms working on `List Char` (`String.data`).
JavaScript's Unicode `toLowerCase` is modelled on the ASCII letters
(identity elsewhere); all inputs relevant to the claims are ASCII apart
from the trademark symbols, which are caseless.  The JS whitespace class
`\s` is modelled by `isJsSpace` below, covering the full ECMA-262 set.
-/

/-- The ECMA-262 whitespace class `\s` (WhiteSpace ∪ LineTerminator). -/
def isJsSpace (c : Char) : Bool :=
  let n := c.toNat
  n == 9 || n == 10 || n == 11 || n == 12 || n == 13 || n == 32 ||
  n == 160 || n == 0x1680 || (0x2000 ≤ n && n ≤ 0x200A) ||
  n == 0x2028 || n == 0x2029 || n == 0x202F || n == 0x205F ||
  n == 0x3000 || n == 0xFEFF

/-- ASCII fragment of JavaScript's `String.prototype.toLowerCase`. -/
def toLowerJs (c : Char) : Char :=
  if 65 ≤ c.toNat ∧ c.toNat ≤ 90 then Char.ofNat (c.toNat + 32) else c

/-- ASCII decimal digit test (the regex class `\d`). -/
def isDigitJs (c : Char) : Bool :=
  48 ≤ c.toNat && c.toNat ≤ 57

/-- Left trim over the JS whitespace class. -/
def ltrimJs (l : List Char) : List Char := l.dropWhile isJsSpace

/-- Right trim over the JS whitespace class. -/
def rtrimJs (l : List Char) : List Char :=
  (l.reverse.dropWhile isJsSpace).reverse

/-- `String.prototype.trim`. -/
def trimJs (l : List Char) : List Char := rtrimJs (ltrimJs l)

/-- String-level wrapper for `trimJs`. -/
def trimJsStr (s : String) : String := ⟨trimJs s.data⟩

/-- One step of `replace(/\s+/g, ' ')`: every maximal run of JS whitespace
becomes a single ASCII space. -/
def collapseWs : List Char → List Char
  | [] => []
  | [c] => if isJsSpace c then [' '] else [c]
  | c₁ :: c₂ :: rest =>
    if isJsSpace c₁ then
      if isJsSpace c₂ then collapseWs (c₂ :: rest)
      else ' ' :: collapseWs (c₂ :: rest)
    else c₁ :: collapseWs (c₂ :: rest)

/-- `replace(/™|®|©/g, '')`: drop every trademark/registered/copyright sign. -/
def stripSym (l : List Char) : List Char :=
  l.filter fun c => !(c == '™' || c == '®' || c == '©')

/-- If `l` starts with `"(copy)"` (case-insensitively in the letters),
return the remainder after it. -/
def copyTail? : List Char → Option (List Char)
  | a :: b :: c :: d :: e :: f :: rest =>
    if a = '(' ∧ toLowerJs b = 'c' ∧ toLowerJs c = 'o' ∧ toLowerJs d = 'p' ∧
       toLowerJs e = 'y' ∧ f = ')' then some rest else none
  | _ => none

/-- Scanner for `replace(/\s*\(copy\)/i, '')`: `acc` is the reversed prefix
already passed; on the first `"(copy)"` occurrence the occurrence and the
whitespace run immediately before it are dropped. -/
def removeCopyGo (acc : List Char) : List Char → List Char
  | [] => acc.reverse
  | c :: rest =>
    match copyTail? (c :: rest) with
    | some rest' => (acc.dropWhile isJsSpace).reverse ++ rest'
    | none => removeCopyGo (c :: acc) rest

/-- `replace(/\s*\(copy\)/i, '')`: remove the first case-insensitive
occurrence of `"(copy)"` together with the whitespace run before it. -/
def removeCopy (l : List Char) : List Char := removeCopyGo [] l

/-- Does the list contain a case-insensitive `"(copy)"` occurrence? -/
def hasCopy : List Char → Bool
  | [] => false
  | c :: rest => (copyTail? (c :: rest)).isSome || hasCopy rest

/-- After the reversed suffix literal matched, `\s+` must match: at least one
whitespace character, consumed maximally. -/
def verWsTail? : List Char → Option (List Char)
  | [] => none
  | c :: rest =>
    if isJsSpace c then some ((c :: rest).dropWhile isJsSpace) else none

/-- Matcher for the reversed string against the reversal of
`\s+(94%|v94)$` (case-insensitive `v`). -/
def verCore? : List Char → Option (List Char)
  | '%' :: '4' :: '9' :: rest => verWsTail? rest
  | a :: b :: c :: rest =>
    if a = '4' ∧ b = '9' ∧ (c = 'v' ∨ c = 'V') then verWsTail? rest else none
  | _ => none

/-- `replace(/\s+(94%|v94)$/i, '')` as a partial match: `some` of the
stripped list when the anchored pattern matches. -/
def matchVer? (l : List Char) : Option (List Char) :=
  (verCore? l.reverse).map List.reverse

/-- `replace(/\s+(94%|v94)$/i, '')`. -/
def stripVer (l : List Char) : List Char := (matchVer? l).getD l

/-- Character pipeline of `normalizeGameName` on a non-empty name. -/
def normList (l : List Char) : List Char :=
  trimJs (collapseWs (stripSym ((stripVer (removeCopy (trimJs l))).map toLowerJs)))

/-- `normalizeGameName` from `App.tsx`: canonical lookup key for a game
name (`null` and the empty string map to the empty key). -/
def normalizeGameName (name : Option String) : String :=
  match name with
  | none => ""
  | some s => if s = "" then "" else ⟨normList s.data⟩


/-- `cleanGameNameForDisplay` from `ReportTable.tsx`: same pipeline as
`normalizeGameName` but without lowercasing. -/
def cleanGameNameForDisplay (name : Option String) : String :=
  match name with
  | none => ""
  | some s =>
    if s = "" then ""
    else ⟨trimJs (collapseWs (stripSym (stripVer (removeCopy (trimJs s.data)))))⟩

/-- `sanitizeFolderName` from `App.tsx`: replace filesystem-illegal
characters with `_`. -/
def sanitizeFolderName (name : String) : String :=
  ⟨name.data.map fun c =>
    if c = '<' ∨ c = '>' ∨ c = ':' ∨ c = '"' ∨ c = '/' ∨ c = '\\' ∨
       c = '|' ∨ c = '?' ∨ c = '*' then '_' else c⟩

/-- Provider metadata parsed from one reference-table line
(`ProviderInfo` from `types.ts`, fields as read by `parseProviderData`). -/
structure ProviderInfo where
  provider : String
  activatedInIms : Option String
  portalLiveDate : Option String
  imsGameCode : Option String
deriving DecidableEq, Repr

/-- `GameProviderMap`: a JS `Map` in insertion order, modelled as an
association list whose `set` overwrites in place. -/
abbrev GameProviderMap := List (String × ProviderInfo)

/-- `Map.prototype.set`: overwrite the value at an existing key in place,
otherwise append. -/
def mapSet (m : GameProviderMap) (k : String) (v : ProviderInfo) : GameProviderMap :=
  if m.any (fun p => p.1 == k) then
    m.map fun p => if p.1 == k then (k, v) else p
  else m ++ [(k, v)]

/-- `Map.prototype.get`. -/
def mapGet (m : GameProviderMap) (k : String) : Option ProviderInfo :=
  (m.find? fun p => p.1 == k).map Prod.snd

/-- JS `String.prototype.split(sep)` for a one-character separator
(`"".split` yields `[""]`). -/
def splitOnChar (sep : Char) : List Char → List (List Char)
  | [] => [[]]
  | c :: rest =>
    match splitOnChar sep rest with
    | [] => [[]]
    | h :: t => if c = sep then [] :: h :: t else (c :: h) :: t

/-- `String.prototype.includes`, via prefix tests at every position. -/
def containsSub (needle : List Char) : List Char → Bool
  | [] => needle.isPrefixOf []
  | c :: rest => needle.isPrefixOf (c :: rest) || containsSub needle rest

/-- Trim an optional field and turn the empty result into `null`
(the `parts[i]?.trim() || null` idiom). -/
def optField (l : List Char) : Option String :=
  let t := trimJs l
  if t = [] then none else some ⟨t⟩

/-- Fold step of `parseProviderData`: parse one tab-separated line into the
map (lines with fewer than 6 fields, empty names or empty keys are
discarded; duplicate keys overwrite). -/
def parseLine (m : GameProviderMap) (line : List Char) : GameProviderMap :=
  let parts := splitOnChar '\t' line
  if 6 ≤ parts.length then
    let gameName := trimJs (parts.getD 0 [])
    let providerName := trimJs (parts.getD 1 [])
    if gameName ≠ [] ∧ providerName ≠ [] then
      let key := normalizeGameName (some ⟨gameName⟩)
      if key ≠ "" then
        mapSet m key
          { provider := ⟨providerName⟩
            activatedInIms := optField (parts.getD 2 [])
            portalLiveDate := optField (parts.getD 3 [])
            imsGameCode := optField (parts.getD 5 []) }
      else m
    else m
  else m

/-- Header test applied to the whole first line:
`lines[0] && lines[0].toLowerCase().includes('game provider')`. -/
def isHeaderLine (l : List Char) : Bool :=
  !l.isEmpty && containsSub "game provider".data (l.map toLowerJs)

/-- `parseProviderData` from `App.tsx`. -/
def parseProviderData (text : String) : GameProviderMap :=
  let lines := splitOnChar '\n' text.data
  let dataLines :=
    match lines with
    | [] => []
    | first :: rest => if isHeaderLine first then rest else lines
  dataLines.foldl parseLine []


/-- `FileDetail` from `types.ts`. -/
structure FileDetail where
  name : String
  md5 : Option String
  sha1 : Option String
deriving DecidableEq, Repr

/-- `GameInstanceData` from `types.ts`. -/
structure GameInstanceData where
  gameName : Option String
  gameCode : Option String
  files : List FileDetail
deriving DecidableEq, Repr

/-- Lifecycle status of a `ProcessedFileData`. -/
inductive FileStatus
  | queued
  | pending
  | processing
  | completed
  | error
deriving DecidableEq, Repr

/-- `ProcessedFileData` from `types.ts`. -/
structure ProcessedFileData where
  id : String
  pdfFileName : String
  reportNumber : Option String
  certificationDate : Option String
  supplierRegistrationNumber : Option String
  extractedInstances : List GameInstanceData
  status : FileStatus
  errorMessage : Option String := none
deriving DecidableEq, Repr

/-- `getDisplayHash` from `ReportTable.tsx` (JS truthiness: a `null` or
empty hash is skipped). -/
def truthyOpt : Option String → Bool
  | none => false
  | some s => s ≠ ""

/-- `getDisplayHash` from `ReportTable.tsx`. -/
def getDisplayHash (file : FileDetail) : String :=
  if truthyOpt file.md5 then file.md5.getD ""
  else if truthyOpt file.sha1 then file.sha1.getD ""
  else ""

/-- Number of days in a (proleptic Gregorian) month, as used by the
ECMAScript UTC calendar. -/
def daysInMonth (y m : Nat) : Nat :=
  if m = 2 then
    if y % 4 = 0 ∧ (y % 100 ≠ 0 ∨ y % 400 = 0) then 29 else 28
  else if m = 4 ∨ m = 6 ∨ m = 9 ∨ m = 11 then 30
  else 31

/-- `Date.UTC(y, m-1, d)` followed by reading the UTC components back:
for `1 ≤ m ≤ 12` and `1 ≤ d ≤ 31` an out-of-range day rolls over into the
next month.  Models the ECMAScript `MakeDay` normalization on exactly the
domain `formatDateToYyyyMmDd` uses it on. -/
def utcNormalize (y m d : Nat) : Nat × Nat × Nat :=
  if d ≤ daysInMonth y m then (y, m, d)
  else if m = 12 then (y + 1, 1, d - daysInMonth y m)
  else (y, m + 1, d - daysInMonth y m)

/-- Zero-pad to two digits, as `toISOString` renders months and days. -/
def pad2 (n : Nat) : String :=
  if n < 10 then "0" ++ toString n else toString n

/-- Zero-pad to four digits, as `toISOString` renders years in `0..9999`. -/
def pad4 (n : Nat) : String :=
  if n < 10 then "000" ++ toString n
  else if n < 100 then "00" ++ toString n
  else if n < 1000 then "0" ++ toString n
  else toString n

/-- The `YYYY-MM-DD` part of `toISOString`. -/
def isoString (y m d : Nat) : String :=
  pad4 y ++ "-" ++ pad2 m ++ "-" ++ pad2 d

/-- `parseInt(·, 10)` on a digit string. -/
def digitsToNat (l : List Char) : Nat :=
  l.foldl (fun acc c => 10 * acc + (c.toNat - 48)) 0

/-- The regex `^\d{4}-\d{2}-\d{2}$` (Case 1 of `formatDateToYyyyMmDd`). -/
def isoMatch : List Char → Bool
  | [y₁, y₂, y₃, y₄, h₁, m₁, m₂, h₂, d₁, d₂] =>
    isDigitJs y₁ && isDigitJs y₂ && isDigitJs y₃ && isDigitJs y₄ &&
    h₁ == '-' && isDigitJs m₁ && isDigitJs m₂ && h₂ == '-' &&
    isDigitJs d₁ && isDigitJs d₂
  | _ => false

/-- The regex `^(\d{1,2})[/\x2d](\d{1,2})[/\x2d](\d{4})$` (Case 2 of
`formatDateToYyyyMmDd`), returning `(day, month, year)`. -/
def dmyMatch (l : List Char) : Option (Nat × Nat × Nat) :=
  if 1 ≤ (l.takeWhile isDigitJs).length ∧ (l.takeWhile isDigitJs).length ≤ 2 then
    match l.dropWhile isDigitJs with
    | s₁ :: r₂ =>
      if s₁ = '/' ∨ s₁ = '-' then
        if 1 ≤ (r₂.takeWhile isDigitJs).length ∧ (r₂.takeWhile isDigitJs).length ≤ 2 then
          match r₂.dropWhile isDigitJs with
          | s₂ :: r₄ =>
            if s₂ = '/' ∨ s₂ = '-' then
              if (r₄.takeWhile isDigitJs).length = 4 ∧ r₄.dropWhile isDigitJs = [] then
                some (digitsToNat (l.takeWhile isDigitJs),
                  digitsToNat (r₂.takeWhile isDigitJs),
                  digitsToNat (r₄.takeWhile isDigitJs))
              else none
            else none
          | [] => none
        else none
      else none
    | [] => none
  else none

/-- `formatDateToYyyyMmDd` from `ReportTable.tsx`.  The engine's free-form
`new Date(string)` parser (an external platform facility) is abstracted as
`jsParse`, which returns the `YYYY-MM-DD` part of `toISOString` for a
string the engine parses, and `none` for an invalid date. -/
def formatDateToYyyyMmDd (jsParse : String → Option String)
    (dateString : Option String) : String :=
  match dateString with
  | none => ""
  | some s =>
    if s = "" then ""
    else
      let t := trimJs s.data
      -- Case 1: already YYYY-MM-DD; validated through the engine's parser
      if isoMatch t && (jsParse ⟨t⟩).isSome then ⟨t⟩
      else
        -- Case 2: D/M/YYYY (priority), with rollover rejection
        match dmyMatch t with
        | some (day, month, year) =>
          if 1000 < year ∧ 1 ≤ month ∧ month ≤ 12 ∧ 1 ≤ day ∧ day ≤ 31 then
            match utcNormalize year month day with
            | (y₂, m₂, d₂) =>
              if d₂ = day then isoString y₂ m₂ d₂
              else (jsParse ⟨t⟩).getD ""     -- Case 3 fallback
          else (jsParse ⟨t⟩).getD ""
        | none => (jsParse ⟨t⟩).getD ""


/-- `formatListForClipboard` from `copyToClipboard`: filter out falsy items,
join with `", "`, double internal quotes and wrap when non-empty. -/
def formatListForClipboard (items : List (Option String)) : String :=
  if items = [] then ""
  else
    let content :=
      String.intercalate ", " ((items.filterMap id).filter fun s => s ≠ "")
    if content = "" then ""
    else
      "\"" ++ ⟨content.data.flatMap fun c => if c = '"' then ['"', '"'] else [c]⟩ ++ "\""

/-- The `authoritativeImsCodeMap` built in both clipboard exports: entries of
the provider map with a truthy `imsGameCode`. -/
def authoritativeImsCodeMap (m : GameProviderMap) : List (String × String) :=
  m.foldl
    (fun acc p =>
      match p.2.imsGameCode with
      | some c =>
        if c ≠ "" then
          if acc.any (fun q => q.1 == p.1) then
            acc.map fun q => if q.1 == p.1 then (p.1, c) else q
          else acc ++ [(p.1, c)]
        else acc
      | none => acc)
    []

/-- Lookup in the IMS-code map. -/
def imsGet (im : List (String × String)) (k : String) : Option String :=
  (im.find? fun q => q.1 == k).map Prod.snd

/-- The `providerInfo?.portalLiveDate || null` argument passed to the date
formatter by both exports. -/
def portalDateArg (info : Option ProviderInfo) : Option String :=
  match info with
  | none => none
  | some i =>
    match i.portalLiveDate with
    | none => none
    | some s => if s = "" then none else some s

/-- One data row of the full-table TSV (`copyToClipboard`), for one
game instance of a completed file. -/
def fullRowForInstance (jsParse : String → Option String) (m : GameProviderMap)
    (im : List (String × String)) (f : ProcessedFileData)
    (inst : GameInstanceData) : String :=
  let key := normalizeGameName inst.gameName
  let info := mapGet m key
  String.intercalate "\t"
    [cleanGameNameForDisplay inst.gameName,
     (imsGet im key).getD "",
     "",
     f.reportNumber.getD "",
     (info.bind ProviderInfo.activatedInIms).getD "",
     formatDateToYyyyMmDd jsParse (portalDateArg info),
     "",
     "",
     formatListForClipboard (inst.files.map fun fd => some fd.name),
     formatListForClipboard (inst.files.map fun fd => some (getDisplayHash fd))]

/-- Rows contributed by one file to the full-table TSV: nothing unless
completed; a near-blank row with just the report number when a completed
file has no instances. -/
def fullRowsForFile (jsParse : String → Option String) (m : GameProviderMap)
    (im : List (String × String)) (f : ProcessedFileData) : List String :=
  if f.status = .completed then
    if f.extractedInstances ≠ [] then
      f.extractedInstances.map (fullRowForInstance jsParse m im f)
    else
      [String.intercalate "\t"
        ["", "", "", f.reportNumber.getD "", "", "", "", "", "", ""]]
  else []

/-- Header row of the full-table TSV. -/
def fullHeaders : String :=
  "GameName\tGameCodes\tProgressive\tCertificateRef\tActivated in IMS\tPortal live date\tSupplierRegistrationnumber\tDeactivated\tFileList\tHashList"

/-- `copyToClipboard` from `ReportTable.tsx` as a pure function: the TSV
text put on the clipboard, or `none` when the joined rows are blank (the
code then alerts instead of copying). -/
def fullTsv (jsParse : String → Option String) (m : GameProviderMap)
    (data : List ProcessedFileData) : Option String :=
  let rows :=
    String.intercalate "\n"
      (data.flatMap (fullRowsForFile jsParse m (authoritativeImsCodeMap m)))
  if trimJsStr rows = "" then none else some (fullHeaders ++ "\n" ++ rows)

/-- One row of the condensed (.COM) export (`ComDataRow` in
`copyForComProcess`). -/
structure ComDataRow where
  gameName : String
  gameCode : String
  certificateRef : String
  activatedInIms : String
  date : String
  provider : String
deriving DecidableEq, Repr

/-- The placeholder instance used for a completed file with no extracted
instances. -/
def placeholderInstance : GameInstanceData :=
  { gameName := none, gameCode := none, files := [] }

/-- `fileEntry.extractedInstances.length > 0 ? … : [placeholder]`. -/
def instancesOrPlaceholder (f : ProcessedFileData) : List GameInstanceData :=
  if f.extractedInstances.length > 0 then f.extractedInstances
  else [placeholderInstance]

/-- One condensed row for one instance of a completed file. -/
def comRowForInstance (jsParse : String → Option String) (m : GameProviderMap)
    (im : List (String × String)) (f : ProcessedFileData)
    (inst : GameInstanceData) : ComDataRow :=
  let key := normalizeGameName inst.gameName
  let info := mapGet m key
  { gameName := cleanGameNameForDisplay inst.gameName
    gameCode := (imsGet im key).getD ""
    certificateRef := f.reportNumber.getD ""
    activatedInIms := (info.bind ProviderInfo.activatedInIms).getD ""
    date := formatDateToYyyyMmDd jsParse (portalDateArg info)
    provider :=
      match info with
      | some i => if i.provider = "" then "ZZZ_Uncategorized" else i.provider
      | none => "ZZZ_Uncategorized" }

/-- Condensed rows contributed by one file (empty unless completed). -/
def comRowsForFile (jsParse : String → Option String) (m : GameProviderMap)
    (im : List (String × String)) (f : ProcessedFileData) : List ComDataRow :=
  if f.status = .completed then
    (instancesOrPlaceholder f).map (comRowForInstance jsParse m im f)
  else []

/-- All condensed rows, in input order (before sorting). -/
def comRows (jsParse : String → Option String) (m : GameProviderMap)
    (data : List ProcessedFileData) : List ComDataRow :=
  data.flatMap (comRowsForFile jsParse m (authoritativeImsCodeMap m))

/-- JS `<` on strings: lexicographic comparison by code unit (all strings
in play are in the basic plane, where code units and code points agree). -/
def strLtB : List Char → List Char → Bool
  | [], [] => false
  | [], _ :: _ => true
  | _ :: _, [] => false
  | a :: as, b :: bs =>
    if a.toNat < b.toNat then true
    else if b.toNat < a.toNat then false
    else strLtB as bs

/-- The comparator passed to `comDataRows.sort`: provider first, then
game name, both ordinal. -/
def jsCompareRows (a b : ComDataRow) : Int :=
  if strLtB a.provider.data b.provider.data then -1
  else if strLtB b.provider.data a.provider.data then 1
  else if strLtB a.gameName.data b.gameName.data then -1
  else if strLtB b.gameName.data a.gameName.data then 1
  else 0

/-- The total preorder induced by the comparator. -/
def rowLe (a b : ComDataRow) : Prop := jsCompareRows a b ≤ 0

instance : DecidableRel rowLe := fun a b => by unfold rowLe; infer_instance

/-- `comDataRows.sort(comparator)`: JS `Array.prototype.sort` is a stable
sort, modelled by insertion sort (stable, and agreeing with any stable
sort on a total preorder). -/
def comRowsSorted (jsParse : String → Option String) (m : GameProviderMap)
    (data : List ProcessedFileData) : List ComDataRow :=
  List.insertionSort rowLe (comRows jsParse m data)

/-- Header row of the condensed export. -/
def comHeaders : String :=
  "Game Name\tIMS Game Code\tCertificate Number\tActivated in IMS\tPortal Live Date"

/-- `copyForComProcess` as a pure function (`none` models the alert when
there are no completed rows). -/
def comTsv (jsParse : String → Option String) (m : GameProviderMap)
    (data : List ProcessedFileData) : Option String :=
  let rows := comRowsSorted jsParse m data
  if rows.length = 0 then none
  else
    some (comHeaders ++ "\n" ++
      String.intercalate "\n"
        (rows.map fun r =>
          String.intercalate "\t"
            [r.gameName, r.gameCode, r.certificateRef, r.activatedInIms, r.date]))

/-- JS `String.prototype.endsWith`. -/
def endsWithStr (s suffix : String) : Bool :=
  suffix.data.reverse.isPrefixOf s.data.reverse

/-- JS `String.prototype.startsWith`. -/
def startsWithStr (s pre : String) : Bool :=
  pre.data.isPrefixOf s.data

/-- Provider resolution in `handleExportZip`: name lookup first (a falsy
provider string falls through), then the game-code suffix heuristics. -/
def resolveZipProviderName (m : GameProviderMap) (inst : GameInstanceData) :
    Option String :=
  let fromName :=
    match mapGet m (normalizeGameName inst.gameName) with
    | some info => if info.provider = "" then none else some info.provider
    | none => none
  match fromName with
  | some p => some p
  | none =>
    match inst.gameCode with
    | some gc =>
      if gc = "" then none
      else if endsWithStr gc "_mcg" then some "Games Global"
      else if endsWithStr gc "_prg" then some "Pragmatic"
      else none
    | none => none

/-- `sanitizeFolderName(providerName?.trim() || 'Uncategorized')`. -/
def zipFolderNameForInstance (m : GameProviderMap) (inst : GameInstanceData) :
    String :=
  sanitizeFolderName
    (match resolveZipProviderName m inst with
     | some p => if trimJsStr p = "" then "Uncategorized" else trimJsStr p
     | none => "Uncategorized")

/-- The set of ZIP folders one completed file's bytes are placed under
(`processedFolders` in `handleExportZip`), in insertion order: one folder
per instance, deduplicated, with the whole-file `Uncategorized` fallback
when no instance produced a folder. -/
def zipFoldersForFile (m : GameProviderMap) (f : ProcessedFileData) :
    List String :=
  let fromInstances :=
    if f.extractedInstances.length > 0 then
      f.extractedInstances.foldl
        (fun acc inst =>
          let fn := zipFolderNameForInstance m inst
          if acc.contains fn then acc else acc ++ [fn])
        []
    else []
  if fromInstances.length = 0 then ["Uncategorized"] else fromInstances

/-- A file as selected in the browser (name, size in bytes, MIME type). -/
structure SelectedFile where
  name : String
  size : Nat
  mime : String
deriving DecidableEq, Repr

/-- The MIME acceptance test of `handleFilesSelected`: exact match for PDF,
prefix match for the two image types. -/
def mimeAccepted (mime : String) : Bool :=
  mime == "application/pdf" ||
  startsWithStr mime "image/png" || startsWithStr mime "image/jpeg"

/-- The entry `handleFilesSelected` pushes for one selected file.  The
byte ceiling and the MB figure in the message come from `constants.ts`
(not part of the core source), so they are parameters here; the
time-based suffix of the generated id is irrelevant to the claims and the
id is modelled as the file name. -/
def enqueueEntry (maxBytes maxMb : Nat) (file : SelectedFile) :
    ProcessedFileData :=
  if file.size > maxBytes then
    { id := file.name, pdfFileName := file.name, reportNumber := none
      certificationDate := none, supplierRegistrationNumber := none
      extractedInstances := [], status := .error
      errorMessage := some ("File exceeds " ++ toString maxMb ++ "MB limit.") }
  else if !mimeAccepted file.mime then
    { id := file.name, pdfFileName := file.name, reportNumber := none
      certificationDate := none, supplierRegistrationNumber := none
      extractedInstances := [], status := .error
      errorMessage := some ("Invalid file type: " ++ file.mime ++
        ". Please upload PDF (.pdf), PNG (.png), or JPEG (.jpg) files.") }
  else
    { id := file.name, pdfFileName := file.name, reportNumber := none
      certificationDate := none, supplierRegistrationNumber := none
      extractedInstances := [], status := .queued, errorMessage := none }

/-- `handleFilesSelected`: append one entry per selected file to the
current list. -/
def handleFilesSelected (maxBytes maxMb : Nat)
    (prev : List ProcessedFileData) (files : List SelectedFile) :
    List ProcessedFileData :=
  prev ++ files.map (enqueueEntry maxBytes maxMb)

/-- The structured result of the extraction collaborator
(`ExtractedGeminiInfo` from `types.ts`). -/
structure ExtractedGeminiInfo where
  reportNumber : Option String
  certificationDate : Option String
  supplierRegistrationNumber : Option String
  gameInstances : List GameInstanceData
deriving DecidableEq, Repr

/-- Per-file step of the batch loop in `handleStartProcessing`.  `lookup`
models `originalFilesMap`; `extract` models the whole per-file extraction
(PDF text extraction / base64 encoding plus the external AI call), with
`Except.error` carrying the thrown message. -/
def processOne (lookup : String → Option SelectedFile)
    (extract : String → Except String ExtractedGeminiInfo)
    (f : ProcessedFileData) : ProcessedFileData :=
  match lookup f.id with
  | none =>
    { f with status := .error,
             errorMessage := some "Original file not found for processing." }
  | some file =>
    let isPdf := file.mime == "application/pdf"
    let isImage :=
      startsWithStr file.mime "image/png" || startsWithStr file.mime "image/jpeg"
    if isPdf || isImage then
      match extract f.id with
      | .ok e =>
        { f with reportNumber := e.reportNumber
                 certificationDate := e.certificationDate
                 supplierRegistrationNumber := e.supplierRegistrationNumber
                 extractedInstances := e.gameInstances
                 status := .completed }
      | .error msg =>
        { f with status := .error,
                 errorMessage :=
                   some (if msg = "" then "Failed to process file or extract data."
                         else msg) }
    else
      { f with status := .error,
               errorMessage :=
                 some ("Unsupported file type for processing: " ++ file.mime) }

/-- Final state of `handleStartProcessing`: with a non-empty credential, a
reference table that parses to a non-empty map and a non-empty queue, every
queued file is processed (sequentially, failures isolated per file) and
every other file is left untouched; otherwise no file state changes. -/
def handleStartProcessing (apiKey providerDataText : String)
    (lookup : String → Option SelectedFile)
    (extract : String → Except String ExtractedGeminiInfo)
    (files : List ProcessedFileData) : List ProcessedFileData :=
  if apiKey = "" then files
  else if (parseProviderData providerDataText).length = 0 then files
  else if (files.filter fun f => f.status == .queued).length = 0 then files
  else files.map fun f => if f.status == .queued then processOne lookup extract f else f

-- Sanity checks mirroring the spec's worked examples.
example : normalizeGameName (some "Book of Ra (copy)") = "book of ra" := by decide
example : normalizeGameName (some "Starburst V94") = "starburst" := by decide
example : normalizeGameName (some "Game™ 94%") = "game" := by decide
example : normalizeGameName (some "  A   B  ") = "a b" := by decide
example : normalizeGameName none = "" := by decide
example :
    mapGet (parseProviderData "Game Provider Header\tx\na\tP\t\t\t\tC1")
      (normalizeGameName (some "a")) =
    some ⟨"P", none, none, some "C1"⟩ := by decide
example : parseProviderData "" = [] := by decide
example : formatDateToYyyyMmDd (fun _ => none) (some "05/03/2024") = "2024-03-05" := by
  decide
example : formatDateToYyyyMmDd (fun _ => none) (some "31/02/2024") = "" := by decide
example : formatDateToYyyyMmDd (fun _ => none) (some "29/02/2024") = "2024-02-29" := by
  decide
example : formatDateToYyyyMmDd (fun _ => none) (some "29/02/2023") = "" := by decide
example : formatDateToYyyyMmDd (fun _ => some "x") (some "2024-03-05") = "2024-03-05" := by
  decide
example : formatDateToYyyyMmDd (fun _ => none) none = "" := by decide

/-! ### Claim C9: display-hash selection -/

/-- Claim C9 counterexample: a `FileDetail` whose `md5` is present but the
empty string displays its `sha1`, not the (empty) `md5`, so md5 does not
take precedence whenever it is merely non-null. -/
theorem getDisplayHash_empty_md5_cex :
    (⟨"f", some "", some "abc"⟩ : FileDetail).md5 = some "" ∧
    getDisplayHash ⟨"f", some "", some "abc"⟩ = "abc" ∧
    getDisplayHash ⟨"f", some "", some "abc"⟩ ≠ "" := by decide

/-- Claim C9 (amended): the displayed hash is the md5 when it is non-null
and non-empty, otherwise the sha1 when that is non-null and non-empty,
otherwise the empty string. -/
theorem getDisplayHash_precedence :
    ∀ f : FileDetail,
      (∀ h, f.md5 = some h → h ≠ "" → getDisplayHash f = h) ∧
      ((f.md5 = none ∨ f.md5 = some "") →
        (∀ h, f.sha1 = some h → h ≠ "" → getDisplayHash f = h) ∧
        ((f.sha1 = none ∨ f.sha1 = some "") → getDisplayHash f = "")) := by
  intro f
  refine ⟨fun h hm hne => ?_, fun hm => ⟨fun h hs hne => ?_, fun hs => ?_⟩⟩
  · simp [getDisplayHash, truthyOpt, hm, hne]
  · rcases hm with hm | hm <;> simp [getDisplayHash, truthyOpt, hm, hs, hne]
  · rcases hm with hm | hm <;> rcases hs with hs | hs <;>
      simp [getDisplayHash, truthyOpt, hm, hs]

/-- Witness for the amended C9 theorem at concrete file details. -/
theorem getDisplayHash_precedence_witness :
    getDisplayHash ⟨"f", some "m5", some "s1"⟩ = "m5" ∧
    getDisplayHash ⟨"f", none, some "s1"⟩ = "s1" ∧
    getDisplayHash ⟨"f", some "", none⟩ = "" :=
  ⟨(getDisplayHash_precedence ⟨"f", some "m5", some "s1"⟩).1 "m5" rfl (by decide),
   ((getDisplayHash_precedence ⟨"f", none, some "s1"⟩).2 (Or.inl rfl)).1 "s1" rfl
     (by decide),
   ((getDisplayHash_precedence ⟨"f", some "", none⟩).2 (Or.inr rfl)).2 (Or.inl rfl)⟩

/-! ### Claim C8: upload validation and batch scope -/

/-- Claim C8 counterexample: a small file whose MIME type `"image/pngx"`
is outside the `{application/pdf, image/png, image/jpeg}` allow-list is
nevertheless queued (the image check is a prefix match), not put in error. -/
theorem enqueue_prefix_mime_cex :
    (handleFilesSelected 100 1 [] [⟨"a.png", 10, "image/pngx"⟩]).map
        ProcessedFileData.status = [.queued] ∧
    ("image/pngx" ≠ "application/pdf" ∧ "image/pngx" ≠ "image/png" ∧
      "image/pngx" ≠ "image/jpeg") := by decide

/-- Claim C8 (amended): on selection, an oversized file immediately enters
`error` with the size message, a file whose MIME type is neither exactly
`application/pdf` nor an `image/png`/`image/jpeg` prefix match enters
`error` with the type message, and all other files enter `queued`; a batch
run maps only `queued` entries through processing and returns every
non-queued entry unchanged at its position. -/
theorem pipeline_validation_and_batch_scope :
    ∀ (maxBytes maxMb : Nat) (prev : List ProcessedFileData)
      (files : List SelectedFile),
      handleFilesSelected maxBytes maxMb prev files =
        prev ++ files.map (enqueueEntry maxBytes maxMb) ∧
      (∀ file : SelectedFile,
        (file.size > maxBytes →
          (enqueueEntry maxBytes maxMb file).status = .error ∧
          (enqueueEntry maxBytes maxMb file).errorMessage =
            some ("File exceeds " ++ toString maxMb ++ "MB limit.")) ∧
        (file.size ≤ maxBytes → mimeAccepted file.mime = false →
          (enqueueEntry maxBytes maxMb file).status = .error ∧
          (enqueueEntry maxBytes maxMb file).errorMessage =
            some ("Invalid file type: " ++ file.mime ++
              ". Please upload PDF (.pdf), PNG (.png), or JPEG (.jpg) files.")) ∧
        (file.size ≤ maxBytes → mimeAccepted file.mime = true →
          (enqueueEntry maxBytes maxMb file).status = .queued)) ∧
      (∀ (apiKey text : String) (lookup : String → Option SelectedFile)
          (extract : String → Except String ExtractedGeminiInfo)
          (state : List ProcessedFileData) (i : Nat) (f : ProcessedFileData),
        state[i]? = some f → f.status ≠ .queued →
        (handleStartProcessing apiKey text lookup extract state)[i]? = some f) := by
  intro maxBytes maxMb prev files
  refine ⟨rfl, fun file => ⟨fun hsz => ?_, fun hsz hmime => ?_, fun hsz hmime => ?_⟩,
    fun apiKey text lookup extract state i f hget hstat => ?_⟩
  · simp [enqueueEntry, hsz]
  · simp [enqueueEntry, Nat.not_lt.mpr hsz, hmime]
  · simp [enqueueEntry, Nat.not_lt.mpr hsz, hmime]
  · unfold handleStartProcessing
    split
    · exact hget
    · split
      · exact hget
      · split
        · exact hget
        · have : (state.map fun f =>
              if f.status == .queued then processOne lookup extract f else f)[i]? =
              (state[i]?).map fun f =>
                if f.status == .queued then processOne lookup extract f else f :=
            List.getElem?_map _ _ _
          rw [this, hget]
          simp only [Option.map_some']
          have hne : (f.status == .queued) = false := by
            cases hsf : f.status <;> simp_all
          rw [hne]
          simp

/-- Witness for the amended C8 theorem: an oversized file, a bad-MIME file,
a valid file, and preservation of an errored entry across a batch run. -/
theorem pipeline_validation_and_batch_scope_witness :
    (enqueueEntry 100 1 ⟨"big.pdf", 200, "application/pdf"⟩).status = .error ∧
    (enqueueEntry 100 1 ⟨"o.txt", 10, "text/plain"⟩).status = .error ∧
    (enqueueEntry 100 1 ⟨"ok.pdf", 10, "application/pdf"⟩).status = .queued ∧
    (handleStartProcessing "k" "a\tP\t\t\t\tc" (fun _ => none) (fun _ => .error "e")
      [{ id := "x", pdfFileName := "x", reportNumber := none
         certificationDate := none, supplierRegistrationNumber := none
         extractedInstances := [], status := .error, errorMessage := some "m" }])[0]? =
      some { id := "x", pdfFileName := "x", reportNumber := none
             certificationDate := none, supplierRegistrationNumber := none
             extractedInstances := [], status := .error, errorMessage := some "m" } :=
  ⟨((pipeline_validation_and_batch_scope 100 1 [] []).2.1
      ⟨"big.pdf", 200, "application/pdf"⟩).1 (by decide) |>.1,
   ((pipeline_validation_and_batch_scope 100 1 [] []).2.1
      ⟨"o.txt", 10, "text/plain"⟩).2.1 (by decide) (by decide) |>.1,
   ((pipeline_validation_and_batch_scope 100 1 [] []).2.1
      ⟨"ok.pdf", 10, "application/pdf"⟩).2.2 (by decide) (by decide),
   (pipeline_validation_and_batch_scope 100 1 [] []).2.2 "k" "a\tP\t\t\t\tc"
      (fun _ => none) (fun _ => .error "e") _ 0 _ rfl (by decide)⟩

/-! ### Claim C2: ZIP folder placement -/

/-- Membership in the deduplicating fold that builds `processedFolders`. -/
theorem zipFold_mem (m : GameProviderMap) (l : List GameInstanceData)
    (acc : List String) (g : String) :
    (g ∈ l.foldl
        (fun acc inst =>
          let fn := zipFolderNameForInstance m inst
          if acc.contains fn then acc else acc ++ [fn])
        acc) ↔
      g ∈ acc ∨ ∃ inst ∈ l, zipFolderNameForInstance m inst = g := by
  induction l generalizing acc with
  | nil => simp
  | cons inst rest ih =>
    simp only [List.foldl_cons, ih, List.mem_cons]
    constructor
    · rintro (hin | h)
      · by_cases hc : acc.contains (zipFolderNameForInstance m inst)
        · simp only [hc, if_pos] at hin
          exact Or.inl hin
        · simp only [hc, if_neg, Bool.false_eq_true, not_false_iff,
            List.mem_append, List.mem_singleton] at hin
          rcases hin with hin | hin
          · exact Or.inl hin
          · exact Or.inr ⟨inst, Or.inl rfl, hin.symm⟩
      · obtain ⟨i, hi, hfi⟩ := h
        exact Or.inr ⟨i, Or.inr hi, hfi⟩
    · rintro (hin | ⟨i, hi | hi, hfi⟩)
      · left
        split
        · exact hin
        · exact List.mem_append_left _ hin
      · left
        subst hi
        split
        · next hc => exact hfi ▸ List.mem_of_elem_eq_true hc
        · exact hfi ▸ List.mem_append_right _ (List.mem_singleton.mpr rfl)
      · exact Or.inr ⟨i, hi, hfi⟩

/-- Claim C2 counterexample: a completed file with one instance resolving
to provider `ProvA` and one instance resolving to no provider is placed
both under `ProvA` and under `Uncategorized` — the per-instance fallback
duplicates a mixed file into `Uncategorized`. -/
theorem zip_mixed_file_uncategorized_cex :
    resolveZipProviderName [("alpha", ⟨"ProvA", none, none, none⟩)]
        ⟨some "Alpha", none, []⟩ = some "ProvA" ∧
    resolveZipProviderName [("alpha", ⟨"ProvA", none, none, none⟩)]
        ⟨some "beta", none, []⟩ = none ∧
    zipFoldersForFile [("alpha", ⟨"ProvA", none, none, none⟩)]
      { id := "i", pdfFileName := "f.pdf", reportNumber := some "R"
        certificationDate := none, supplierRegistrationNumber := none
        extractedInstances := [⟨some "Alpha", none, []⟩, ⟨some "beta", none, []⟩]
        status := .completed, errorMessage := none } =
      ["ProvA", "Uncategorized"] := by decide

/-- Claim C2 (amended): in the ZIP export each instance of a completed
file contributes a folder — its resolved provider's sanitized name, or
`Uncategorized` when that instance resolves to none — and the file is
added exactly under the deduplicated set of those folders; the whole-file
`Uncategorized` fallback applies exactly to completed files with no
instances. -/
theorem zip_folders_per_instance :
    ∀ (m : GameProviderMap) (f : ProcessedFileData),
      (f.extractedInstances ≠ [] →
        (∀ inst ∈ f.extractedInstances,
          zipFolderNameForInstance m inst ∈ zipFoldersForFile m f) ∧
        (∀ g ∈ zipFoldersForFile m f,
          ∃ inst ∈ f.extractedInstances, zipFolderNameForInstance m inst = g)) ∧
      (f.extractedInstances = [] → zipFoldersForFile m f = ["Uncategorized"]) := by
  intro m f
  constructor
  · intro hne
    have hlen : f.extractedInstances.length > 0 := List.length_pos.mpr hne
    have hfold :
        zipFoldersForFile m f =
          f.extractedInstances.foldl
            (fun acc inst =>
              let fn := zipFolderNameForInstance m inst
              if acc.contains fn then acc else acc ++ [fn])
            [] := by
      unfold zipFoldersForFile
      simp only [hlen, if_pos]
      split
      · next hzero =>
        obtain ⟨i, hi⟩ := List.exists_mem_of_ne_nil _ hne
        have : zipFolderNameForInstance m i ∈ ([] : List String) := by
          rw [← List.length_eq_zero.mp hzero]
          exact (zipFold_mem m _ [] _).mpr (Or.inr ⟨i, hi, rfl⟩)
        simp at this
      · rfl
    constructor
    · intro inst hi
      rw [hfold]
      exact (zipFold_mem m _ [] _).mpr (Or.inr ⟨inst, hi, rfl⟩)
    · intro g hg
      rw [hfold] at hg
      rcases (zipFold_mem m _ [] _).mp hg with h | h
      · simp at h
      · exact h
  · intro hnil
    unfold zipFoldersForFile
    simp [hnil]

/-- Witness for the amended C2 theorem at a concrete mixed file. -/
theorem zip_folders_per_instance_witness :
    zipFolderNameForInstance [("alpha", ⟨"ProvA", none, none, none⟩)]
        ⟨some "beta", none, []⟩ ∈
      zipFoldersForFile [("alpha", ⟨"ProvA", none, none, none⟩)]
        { id := "i", pdfFileName := "f.pdf", reportNumber := some "R"
          certificationDate := none, supplierRegistrationNumber := none
          extractedInstances := [⟨some "Alpha", none, []⟩, ⟨some "beta", none, []⟩]
          status := .completed, errorMessage := none } ∧
    zipFoldersForFile [("alpha", ⟨"ProvA", none, none, none⟩)]
        { id := "i2", pdfFileName := "g.pdf", reportNumber := none
          certificationDate := none, supplierRegistrationNumber := none
          extractedInstances := [], status := .completed, errorMessage := none } =
      ["Uncategorized"] :=
  ⟨((zip_folders_per_instance [("alpha", ⟨"ProvA", none, none, none⟩)]
      { id := "i", pdfFileName := "f.pdf", reportNumber := some "R"
        certificationDate := none, supplierRegistrationNumber := none
        extractedInstances := [⟨some "Alpha", none, []⟩, ⟨some "beta", none, []⟩]
        status := .completed, errorMessage := none }).1 (by decide)).1
      ⟨some "beta", none, []⟩ (by decide),
   (zip_folders_per_instance [("alpha", ⟨"ProvA", none, none, none⟩)]
      { id := "i2", pdfFileName := "g.pdf", reportNumber := none
        certificationDate := none, supplierRegistrationNumber := none
        extractedInstances := [], status := .completed, errorMessage := none }).2 rfl⟩

/-! ### Claim C7: full-table TSV never reads extracted game codes -/

/-- Forget the extracted `gameCode` of every instance of a file. -/
def eraseGameCodes (f : ProcessedFileData) : ProcessedFileData :=
  { f with extractedInstances :=
      f.extractedInstances.map fun i => { i with gameCode := none } }

/-- A full-table row does not depend on the instance's extracted game code. -/
theorem fullRowForInstance_erase (jsParse : String → Option String)
    (m : GameProviderMap) (im : List (String × String)) (f : ProcessedFileData)
    (inst : GameInstanceData) :
    fullRowForInstance jsParse m im f { inst with gameCode := none } =
      fullRowForInstance jsParse m im f inst := by
  cases inst
  rfl

/-- A file's full-table rows do not depend on extracted game codes. -/
theorem fullRowsForFile_erase (jsParse : String → Option String)
    (m : GameProviderMap) (im : List (String × String)) (f : ProcessedFileData) :
    fullRowsForFile jsParse m im (eraseGameCodes f) =
      fullRowsForFile jsParse m im f := by
  obtain ⟨idv, nm, rn, cd, srn, insts, st, em⟩ := f
  unfold eraseGameCodes fullRowsForFile
  by_cases hst : st = FileStatus.completed
  · by_cases hne : insts = []
    · simp [hst, hne]
    · simp only [hst, if_pos, hne, ne_eq, not_false_iff, List.map_eq_nil_iff,
        if_true, List.map_map]
      apply List.map_congr_left
      intro i _
      exact fullRowForInstance_erase jsParse m im _ i
  · simp [hst]

/-- Claim C7: the full-table TSV is a function of the completed-file set
with all extracted game codes forgotten, so two data sets that differ only
in extracted `gameCode` fields produce byte-identical output. -/
theorem fullTsv_ignores_extracted_game_codes :
    ∀ (jsParse : String → Option String) (m : GameProviderMap)
      (d₁ d₂ : List ProcessedFileData),
      d₁.map eraseGameCodes = d₂.map eraseGameCodes →
      fullTsv jsParse m d₁ = fullTsv jsParse m d₂ := by
  have key :
      ∀ (jsParse : String → Option String) (m : GameProviderMap)
        (d : List ProcessedFileData),
        fullTsv jsParse m (d.map eraseGameCodes) = fullTsv jsParse m d := by
    intro jsParse m d
    unfold fullTsv
    have hflat :
        (d.map eraseGameCodes).flatMap
            (fullRowsForFile jsParse m (authoritativeImsCodeMap m)) =
          d.flatMap (fullRowsForFile jsParse m (authoritativeImsCodeMap m)) := by
      induction d with
      | nil => rfl
      | cons a l ih =>
        simp only [List.map_cons, List.flatMap_cons, ih,
          fullRowsForFile_erase]
    rw [hflat]
  intro jsParse m d₁ d₂ h
  rw [← key jsParse m d₁, ← key jsParse m d₂, h]

/-- Witness for C7: two concrete one-file data sets differing only in the
extracted game code produce the same full-table TSV. -/
theorem fullTsv_ignores_extracted_game_codes_witness :
    fullTsv (fun _ => none) [("g", ⟨"P", some "Yes", some "2024-03-05", some "CODE1"⟩)]
        [{ id := "i", pdfFileName := "f.pdf", reportNumber := some "R"
           certificationDate := none, supplierRegistrationNumber := none
           extractedInstances := [⟨some "g", some "code_from_extraction", []⟩]
           status := .completed, errorMessage := none }] =
      fullTsv (fun _ => none) [("g", ⟨"P", some "Yes", some "2024-03-05", some "CODE1"⟩)]
        [{ id := "i", pdfFileName := "f.pdf", reportNumber := some "R"
           certificationDate := none, supplierRegistrationNumber := none
           extractedInstances := [⟨some "g", none, []⟩]
           status := .completed, errorMessage := none }] :=
  fullTsv_ignores_extracted_game_codes (fun _ => none) _ _ _ (by decide)

/-! ### Claim C6: condensed-export sort order -/

theorem char_eq_of_toNat_eq {x y : Char} (h : x.toNat = y.toNat) : x = y :=
  Char.eq_of_val_eq (UInt32.ext h)

theorem strLtB_asymm : ∀ a b : List Char,
    strLtB a b = true → strLtB b a = false := by
  intro a
  induction a with
  | nil =>
    intro b h
    cases b with
    | nil => simp [strLtB] at h
    | cons c cs => simp [strLtB]
  | cons x xs ih =>
    intro b h
    cases b with
    | nil => simp [strLtB] at h
    | cons y ys =>
      simp only [strLtB] at h ⊢
      by_cases hxy : x.toNat < y.toNat
      · rw [if_neg (by omega), if_pos hxy]
      · by_cases hyx : y.toNat < x.toNat
        · rw [if_neg hxy, if_pos hyx] at h
          exact absurd h (by simp)
        · have hx : x = y := char_eq_of_toNat_eq (by omega)
          subst hx
          rw [if_neg hxy, if_neg hyx] at h ⊢
          exact ih ys h

theorem strLtB_conn : ∀ a b : List Char,
    strLtB a b = false → strLtB b a = false → a = b := by
  intro a
  induction a with
  | nil =>
    intro b h₁ _
    cases b with
    | nil => rfl
    | cons c cs => simp [strLtB] at h₁
  | cons x xs ih =>
    intro b h₁ h₂
    cases b with
    | nil => simp [strLtB] at h₂
    | cons y ys =>
      simp only [strLtB] at h₁ h₂
      by_cases hxy : x.toNat < y.toNat
      · rw [if_pos hxy] at h₁
        exact absurd h₁ (by simp)
      · by_cases hyx : y.toNat < x.toNat
        · rw [if_pos hyx] at h₂
          exact absurd h₂ (by simp)
        · have hx : x = y := char_eq_of_toNat_eq (by omega)
          subst hx
          rw [if_neg hxy, if_neg hyx] at h₁ h₂
          rw [ih ys h₁ h₂]

theorem strLtB_trans : ∀ a b c : List Char,
    strLtB a b = true → strLtB b c = true → strLtB a c = true := by
  intro a
  induction a with
  | nil =>
    intro b c h₁ h₂
    cases b with
    | nil => simp [strLtB] at h₁
    | cons y ys =>
      cases c with
      | nil => simp [strLtB] at h₂
      | cons z zs => simp [strLtB]
  | cons x xs ih =>
    intro b c h₁ h₂
    cases b with
    | nil => simp [strLtB] at h₁
    | cons y ys =>
      cases c with
      | nil => simp [strLtB] at h₂
      | cons z zs =>
        simp only [strLtB] at h₁ h₂ ⊢
        by_cases hzy : z.toNat < y.toNat
        · rw [if_neg (by omega), if_pos hzy] at h₂
          exact absurd h₂ (by simp)
        · by_cases hyx : y.toNat < x.toNat
          · rw [if_neg (by omega), if_pos hyx] at h₁
            exact absurd h₁ (by simp)
          · by_cases hxy : x.toNat < y.toNat
            · rw [if_pos (by omega)]
            · have hx : x = y := char_eq_of_toNat_eq (by omega)
              subst hx
              rw [if_neg hxy, if_neg hyx] at h₁
              by_cases hxz : x.toNat < z.toNat
              · rw [if_pos hxz]
              · have hz : x = z := char_eq_of_toNat_eq (by omega)
                subst hz
                rw [if_neg hxz, if_neg (by omega)] at h₂ ⊢
                exact ih ys zs h₁ h₂

/-- Characterization of the comparator's non-positive results. -/
theorem rowLe_iff (a b : ComDataRow) :
    rowLe a b ↔
      (strLtB a.provider.data b.provider.data = true ∨
        (strLtB a.provider.data b.provider.data = false ∧
         strLtB b.provider.data a.provider.data = false ∧
         (strLtB a.gameName.data b.gameName.data = true ∨
          strLtB b.gameName.data a.gameName.data = false))) := by
  unfold rowLe jsCompareRows
  by_cases h₁ : strLtB a.provider.data b.provider.data
  · simp [h₁]
  · by_cases h₂ : strLtB b.provider.data a.provider.data
    · simp [h₁, h₂]
    · by_cases h₃ : strLtB a.gameName.data b.gameName.data
      · simp [h₁, h₂, h₃]
      · by_cases h₄ : strLtB b.gameName.data a.gameName.data
        · simp [h₁, h₂, h₃, h₄]
        · simp [h₁, h₂, h₃, h₄]

instance : IsTotal ComDataRow rowLe := by
  constructor
  intro a b
  rw [rowLe_iff, rowLe_iff]
  by_cases h₁ : strLtB a.provider.data b.provider.data
  · exact Or.inl (Or.inl h₁)
  · by_cases h₂ : strLtB b.provider.data a.provider.data
    · exact Or.inr (Or.inl h₂)
    · by_cases h₃ : strLtB a.gameName.data b.gameName.data
      · exact Or.inl (Or.inr ⟨by simpa using h₁, by simpa using h₂, Or.inl h₃⟩)
      · exact Or.inr (Or.inr ⟨by simpa using h₂, by simpa using h₁,
          Or.inr (by simpa using h₃)⟩)

instance : IsTrans ComDataRow rowLe := by
  constructor
  intro a b c hab hbc
  rw [rowLe_iff] at hab hbc ⊢
  rcases hab with hab | ⟨hab₁, hab₂, hab₃⟩
  · rcases hbc with hbc | ⟨hbc₁, hbc₂, hbc₃⟩
    · exact Or.inl (strLtB_trans _ _ _ hab hbc)
    · have : b.provider.data = c.provider.data := strLtB_conn _ _ hbc₁ hbc₂
      exact Or.inl (this ▸ hab)
  · have hpab : a.provider.data = b.provider.data := strLtB_conn _ _ hab₁ hab₂
    rcases hbc with hbc | ⟨hbc₁, hbc₂, hbc₃⟩
    · exact Or.inl (hpab ▸ hbc)
    · have hpbc : b.provider.data = c.provider.data := strLtB_conn _ _ hbc₁ hbc₂
      refine Or.inr ⟨by rw [hpab]; exact hbc₁, by rw [hpab]; exact hbc₂, ?_⟩
      rcases hab₃ with hab₃ | hab₃ <;> rcases hbc₃ with hbc₃ | hbc₃
      · exact Or.inl (strLtB_trans _ _ _ hab₃ hbc₃)
      · by_cases hca : strLtB c.gameName.data a.gameName.data
        · cases hh : strLtB c.gameName.data b.gameName.data with
          | true => simp [hh] at hbc₃
          | false =>
            have := strLtB_trans _ _ _ hca hab₃
            simp [this] at hbc₃
        · exact Or.inr (by simpa using hca)
      · by_cases hca : strLtB c.gameName.data a.gameName.data
        · have := strLtB_trans _ _ _ hbc₃ hca
          simp [this] at hab₃
        · exact Or.inr (by simpa using hca)
      · by_cases hab' : strLtB a.gameName.data b.gameName.data
        · by_cases hca : strLtB c.gameName.data a.gameName.data
          · have := strLtB_trans _ _ _ hca hab'
            simp [this] at hbc₃
          · exact Or.inr (by simpa using hca)
        · have hnab : a.gameName.data = b.gameName.data :=
            strLtB_conn _ _ (by simpa using hab') (by simpa using hab₃)
          exact Or.inr (hnab ▸ hbc₃)

/-- Claim C6 counterexample: with a reference provider named `"zzz"`
(ordinally above the sentinel, which starts with uppercase `Z`), the
unresolved row's sentinel sorts *before* the resolved row, so rows without
a resolved provider do not sort after all resolved rows. -/
theorem comSort_sentinel_not_last_cex :
    (comRowsSorted (fun _ => none) [("a", ⟨"zzz", none, none, none⟩)]
        [{ id := "i1", pdfFileName := "f1", reportNumber := some "R1"
           certificationDate := none, supplierRegistrationNumber := none
           extractedInstances := [⟨some "a", none, []⟩, ⟨some "b", none, []⟩]
           status := .completed, errorMessage := none }]).map ComDataRow.provider =
      ["ZZZ_Uncategorized", "zzz"] ∧
    mapGet [("a", ⟨"zzz", none, none, none⟩)] (normalizeGameName (some "b")) =
      none := by decide

/-- Claim C6 (amended): the condensed rows are sorted by the comparator
ordering — resolved provider name first, then display game name, both
ordinal case-sensitive — as a stable permutation of the unsorted rows;
rows without a resolved provider carry the sentinel provider
`"ZZZ_Uncategorized"`, which participates in that same ordinal order (it
does not, in general, sort after every resolved provider). -/
theorem comSort_characterization :
    ∀ (jsParse : String → Option String) (m : GameProviderMap)
      (data : List ProcessedFileData),
      (comRowsSorted jsParse m data).Perm (comRows jsParse m data) ∧
      List.Sorted rowLe (comRowsSorted jsParse m data) ∧
      (∀ r ∈ comRows jsParse m data,
        r.provider = "ZZZ_Uncategorized" ∨
        ∃ k info, mapGet m k = some info ∧ r.provider = info.provider) := by
  intro jsParse m data
  refine ⟨List.perm_insertionSort rowLe _, List.sorted_insertionSort rowLe _, ?_⟩
  intro r hr
  unfold comRows at hr
  obtain ⟨f, _, hrf⟩ := List.mem_flatMap.mp hr
  unfold comRowsForFile at hrf
  by_cases hst : f.status = FileStatus.completed
  · rw [if_pos hst] at hrf
    obtain ⟨inst, _, hri⟩ := List.mem_map.mp hrf
    subst hri
    unfold comRowForInstance
    cases hlook : mapGet m (normalizeGameName inst.gameName) with
    | none => exact Or.inl (by simp [hlook])
    | some info =>
      by_cases hp : info.provider = ""
      · exact Or.inl (by simp [hlook, hp])
      · exact Or.inr ⟨normalizeGameName inst.gameName, info, hlook,
          by simp [hlook, hp]⟩
  · rw [if_neg hst] at hrf
    simp at hrf

/-- Witness for the amended C6 theorem at a concrete data set. -/
theorem comSort_characterization_witness :
    ((comRowsSorted (fun _ => none) [("w1", ⟨"ProvW", none, none, none⟩)]
        [{ id := "w", pdfFileName := "w.pdf", reportNumber := none
           certificationDate := none, supplierRegistrationNumber := none
           extractedInstances := [⟨some "w1", none, []⟩]
           status := .completed, errorMessage := none }]).Perm
      (comRows (fun _ => none) [("w1", ⟨"ProvW", none, none, none⟩)]
        [{ id := "w", pdfFileName := "w.pdf", reportNumber := none
           certificationDate := none, supplierRegistrationNumber := none
           extractedInstances := [⟨some "w1", none, []⟩]
           status := .completed, errorMessage := none }])) ∧
    ((comRows (fun _ => none) [("w1", ⟨"ProvW", none, none, none⟩)]
        [{ id := "w", pdfFileName := "w.pdf", reportNumber := none
           certificationDate := none, supplierRegistrationNumber := none
           extractedInstances := [⟨some "w1", none, []⟩]
           status := .completed, errorMessage := none }]).head?.map
        ComDataRow.provider ≠ some "ZZZ_Uncategorized") ∧
    True := by
  refine ⟨(comSort_characterization (fun _ => none) _ _).1, ?_, trivial⟩
  decide

/-! ### Claim C10: placeholder rows of instance-less completed files -/

/-- The fold that builds `authoritativeImsCodeMap` introduces no key that
is not a key of the provider map. -/
theorem authFold_keys (k : String) :
    ∀ (m : GameProviderMap) (acc : List (String × String)),
      (∀ p ∈ m, p.1 ≠ k) → (∀ q ∈ acc, q.1 ≠ k) →
      ∀ q ∈ m.foldl
          (fun acc p =>
            match p.2.imsGameCode with
            | some c =>
              if c ≠ "" then
                if acc.any (fun q => q.1 == p.1) then
                  acc.map fun q => if q.1 == p.1 then (p.1, c) else q
                else acc ++ [(p.1, c)]
              else acc
            | none => acc)
          acc, q.1 ≠ k := by
  intro m
  induction m with
  | nil =>
    intro acc _ hacc q hq
    exact hacc q hq
  | cons p rest ih =>
    intro acc hm hacc
    simp only [List.foldl_cons]
    apply ih _ (fun p' hp' => hm p' (List.mem_cons_of_mem _ hp'))
    intro q hq
    have hp1 : p.1 ≠ k := hm p (List.mem_cons_self _ _)
    cases hcode : p.2.imsGameCode with
    | none =>
      simp only [hcode] at hq
      exact hacc q hq
    | some c =>
      simp only [hcode] at hq
      by_cases hc : c ≠ ""
      · rw [if_pos hc] at hq
        split at hq
        · obtain ⟨q', hq', hfq⟩ := List.mem_map.mp hq
          by_cases hq1 : q'.1 == p.1
          · rw [if_pos hq1] at hfq
            rw [← hfq]
            exact hp1
          · rw [if_neg hq1] at hfq
            rw [← hfq]
            exact hacc q' hq'
        · rcases List.mem_append.mp hq with h | h
          · exact hacc q h
          · rw [List.mem_singleton.mp h]
            exact hp1
      · rw [if_neg hc] at hq
        exact hacc q hq

/-- If `k` is not a key of the provider map, it is not a key of the
authoritative IMS-code map either. -/
theorem imsGet_none_of_mapGet_none (m : GameProviderMap) (k : String)
    (h : mapGet m k = none) : imsGet (authoritativeImsCodeMap m) k = none := by
  have hkeys : ∀ p ∈ m, p.1 ≠ k := by
    intro p hp hcontra
    unfold mapGet at h
    rw [Option.map_eq_none'] at h
    have := List.find?_eq_none.mp h p hp
    simp [hcontra] at this
  have hall := authFold_keys k m [] hkeys (by simp)
  unfold imsGet
  rw [Option.map_eq_none']
  apply List.find?_eq_none.mpr
  intro q hq
  simpa using authFold_keys k m [] hkeys (by simp) q hq

/-- Claim C10 counterexample: with a resolved provider named `"aaa"`, the
placeholder row of a completed zero-instance file (carrying the sentinel)
sorts *before* the resolved row, so it is not sorted after all rows with a
resolved provider. -/
theorem com_placeholder_sort_cex :
    (comRowsSorted (fun _ => none) [("g", ⟨"aaa", none, none, none⟩)]
        [{ id := "i1", pdfFileName := "f1", reportNumber := some "R1"
           certificationDate := none, supplierRegistrationNumber := none
           extractedInstances := [], status := .completed, errorMessage := none },
         { id := "i2", pdfFileName := "f2", reportNumber := some "R2"
           certificationDate := none, supplierRegistrationNumber := none
           extractedInstances := [⟨some "g", none, []⟩]
           status := .completed, errorMessage := none }]).map ComDataRow.provider =
      ["ZZZ_Uncategorized", "aaa"] := by decide

/-- Claim C10 (amended): every completed file with zero extracted
instances contributes exactly one placeholder row to the condensed export:
empty game name, game code, activated-in-IMS and date cells, the file's
report number as certificate number, and the no-provider sentinel
`"ZZZ_Uncategorized"` as its sort provider (which participates in the
ordinal order rather than always sorting last). -/
theorem com_placeholder_row (jsParse : String → Option String)
    (m : GameProviderMap) (f : ProcessedFileData)
    (hm : mapGet m "" = none) (hst : f.status = FileStatus.completed)
    (hinst : f.extractedInstances = []) :
    comRowsForFile jsParse m (authoritativeImsCodeMap m) f =
      [{ gameName := "", gameCode := "", certificateRef := f.reportNumber.getD ""
         activatedInIms := "", date := "", provider := "ZZZ_Uncategorized" }] := by
  unfold comRowsForFile
  rw [if_pos hst]
  unfold instancesOrPlaceholder
  rw [hinst]
  simp only [List.length_nil, gt_iff_lt, Nat.lt_irrefl, if_false, List.map_cons,
    List.map_nil]
  congr 1
  unfold comRowForInstance placeholderInstance
  have hkey : normalizeGameName (none : Option String) = "" := rfl
  simp only [hkey, hm, imsGet_none_of_mapGet_none m "" hm]
  rfl

/-- Witness for the amended C10 theorem at a concrete file. -/
theorem com_placeholder_row_witness :
    comRowsForFile (fun _ => none) [("w2", ⟨"ProvX", none, none, none⟩)]
        (authoritativeImsCodeMap [("w2", ⟨"ProvX", none, none, none⟩)])
        { id := "p", pdfFileName := "p.pdf", reportNumber := some "RN-9"
          certificationDate := none, supplierRegistrationNumber := none
          extractedInstances := [], status := .completed, errorMessage := none } =
      [{ gameName := "", gameCode := "", certificateRef := "RN-9"
         activatedInIms := "", date := "", provider := "ZZZ_Uncategorized" }] :=
  com_placeholder_row (fun _ => none) _ _ (by decide) rfl rfl

/-! ### Claim C5: day-month-year date parsing -/

/-- Unpack a successful `dmyMatch` into the syntactic shape of the input. -/
theorem dmyMatch_shape (l : List Char) (d m y : Nat)
    (h : dmyMatch l = some (d, m, y)) :
    ∃ (ds ms ys : List Char) (s₁ s₂ : Char),
      l = ds ++ s₁ :: (ms ++ s₂ :: ys) ∧
      (∀ c ∈ ds, isDigitJs c) ∧ (∀ c ∈ ms, isDigitJs c) ∧ (∀ c ∈ ys, isDigitJs c) ∧
      1 ≤ ds.length ∧ ds.length ≤ 2 ∧ 1 ≤ ms.length ∧ ms.length ≤ 2 ∧
      ys.length = 4 ∧ (s₁ = '/' ∨ s₁ = '-') ∧ (s₂ = '/' ∨ s₂ = '-') ∧
      d = digitsToNat ds ∧ m = digitsToNat ms ∧ y = digitsToNat ys := by
  unfold dmyMatch at h
  split at h
  · next hlen =>
    split at h
    · next s₁ r₂ heq =>
      split at h
      · next hs₁ =>
        split at h
        · next hlen₂ =>
          split at h
          · next s₂ r₄ heq₂ =>
            split at h
            · next hs₂ =>
              split at h
              · next hys =>
                refine ⟨l.takeWhile isDigitJs, r₂.takeWhile isDigitJs,
                  r₄.takeWhile isDigitJs, s₁, s₂, ?_, ?_, ?_, ?_,
                  hlen.1, hlen.2, hlen₂.1, hlen₂.2, hys.1, hs₁, hs₂, ?_, ?_, ?_⟩
                · conv_lhs => rw [← List.takeWhile_append_dropWhile isDigitJs l]
                  rw [heq]
                  congr 1
                  congr 1
                  conv_lhs => rw [← List.takeWhile_append_dropWhile isDigitJs r₂]
                  rw [heq₂]
                  congr 1
                  congr 1
                  have h₅ := hys.2
                  conv_lhs => rw [← List.takeWhile_append_dropWhile isDigitJs r₄]
                  rw [h₅, List.append_nil]
                · intro c hc; exact List.mem_takeWhile_imp hc
                · intro c hc; exact List.mem_takeWhile_imp hc
                · intro c hc; exact List.mem_takeWhile_imp hc
                · exact (Prod.mk.injEq _ _ _ _ ▸ Option.some.inj h).1.symm
                · have := Option.some.inj h
                  exact (congrArg (fun t => t.2.1) this).symm
                · have := Option.some.inj h
                  exact (congrArg (fun t => t.2.2) this).symm
              · exact absurd h (by simp)
            · exact absurd h (by simp)
          · exact absurd h (by simp)
        · exact absurd h (by simp)
      · exact absurd h (by simp)
    · exact absurd h (by simp)
  · exact absurd h (by simp)

theorem isJsSpace_of_digit {c : Char} (h : isDigitJs c = true) :
    isJsSpace c = false := by
  unfold isDigitJs at h
  unfold isJsSpace
  simp only [Bool.and_eq_true, decide_eq_true_eq] at h
  simp only [Bool.or_eq_false_iff, beq_eq_false_iff_ne, ne_eq,
    Bool.and_eq_false_iff, decide_eq_false_iff_not, Nat.not_le]
  omega

/-- Left trim is the identity when the first character is not whitespace. -/
theorem ltrimJs_eq_self_of_head (c : Char) (rest : List Char)
    (h : isJsSpace c = false) : ltrimJs (c :: rest) = c :: rest := by
  simp [ltrimJs, List.dropWhile_cons, h]

/-- Right trim is the identity when the last character is not whitespace. -/
theorem rtrimJs_eq_self_of_last (init : List Char) (b : Char)
    (h : isJsSpace b = false) : rtrimJs (init ++ [b]) = init ++ [b] := by
  simp [rtrimJs, List.dropWhile_cons, h]

/-- A string the day-month-year regex accepts starts and ends with a
digit, so trimming is the identity on it. -/
theorem trimJs_eq_self_of_dmy (l : List Char) (d m y : Nat)
    (h : dmyMatch l = some (d, m, y)) : trimJs l = l := by
  obtain ⟨ds, ms, ys, s₁, s₂, hl, hds, _, hys, hlen₁, _, _, _, hylen, _, _, _, _, _⟩ :=
    dmyMatch_shape l d m y h
  cases ds with
  | nil => exact absurd hlen₁ (by simp)
  | cons c ds' =>
    have hc : isDigitJs c := hds c (List.mem_cons_self _ _)
    have hys_ne : ys ≠ [] := by
      intro hcon
      rw [hcon] at hylen
      simp at hylen
    obtain ⟨ys', b, hysplit⟩ := List.eq_nil_or_concat ys |>.resolve_left hys_ne
    have hb : isDigitJs b := hys b (by rw [hysplit]; simp)
    have hl₂ : l = (c :: (ds' ++ s₁ :: (ms ++ s₂ :: ys'))) ++ [b] := by
      rw [hl, hysplit]
      simp
    have step1 : ltrimJs l = l := by
      rw [hl]
      exact ltrimJs_eq_self_of_head _ _ (isJsSpace_of_digit hc)
    have step2 : rtrimJs l = l := by
      rw [hl₂]
      exact rtrimJs_eq_self_of_last _ _ (isJsSpace_of_digit hb)
    show rtrimJs (ltrimJs l) = l
    rw [step1, step2]

/-- `isoMatch` requires digits in its second and third positions. -/
theorem isoMatch_digits (l : List Char) (h : isoMatch l = true) :
    (∃ c, l[1]? = some c ∧ isDigitJs c) ∧ (∃ c, l[2]? = some c ∧ isDigitJs c) := by
  unfold isoMatch at h
  split at h
  · next y₁ y₂ y₃ y₄ h₁ m₁ m₂ h₂ d₁ d₂ =>
    simp only [Bool.and_eq_true] at h
    exact ⟨⟨y₂, rfl, h.1.1.1.1.1.1.1.1.2⟩, ⟨y₃, rfl, h.1.1.1.1.1.1.1.2⟩⟩
  · exact absurd h (by simp)

/-- A string accepted by the day-month-year regex is rejected by the
ISO regex (the separator sits where ISO requires a digit). -/
theorem isoMatch_false_of_dmy (l : List Char) (d m y : Nat)
    (h : dmyMatch l = some (d, m, y)) : isoMatch l = false := by
  obtain ⟨ds, ms, ys, s₁, s₂, hl, _, _, _, hlen₁, hlen₂, _, _, _, hs₁, _, _, _, _⟩ :=
    dmyMatch_shape l d m y h
  by_contra hcon
  rw [Bool.not_eq_false] at hcon
  obtain ⟨⟨c₁, hc₁, hd₁⟩, ⟨c₂, hc₂, hd₂⟩⟩ := isoMatch_digits l hcon
  have hsep : l[ds.length]? = some s₁ := by
    rw [hl, List.getElem?_append_right (Nat.le_refl _)]
    simp
  have hnotdig : isDigitJs s₁ = false := by
    rcases hs₁ with h | h <;> rw [h] <;> decide
  have hcases : ds.length = 1 ∨ ds.length = 2 := by omega
  rcases hcases with hlen | hlen
  · rw [hlen] at hsep
    rw [hsep] at hc₁
    rw [← Option.some.inj hc₁, hnotdig] at hd₁
    exact Bool.noConfusion hd₁
  · rw [hlen] at hsep
    rw [hsep] at hc₂
    rw [← Option.some.inj hc₂, hnotdig] at hd₂
    exact Bool.noConfusion hd₂

theorem daysInMonth_ge (y m : Nat) : 28 ≤ daysInMonth y m := by
  unfold daysInMonth
  split
  · split <;> omega
  · split <;> omega

/-- When the normalized day-of-month equals the input day, no rollover
happened and the constructed UTC date is exactly the parsed one. -/
theorem utcNormalize_eq_self (y m d : Nat)
    (h : (utcNormalize y m d).2.2 = d) : utcNormalize y m d = (y, m, d) := by
  have hge := daysInMonth_ge y m
  unfold utcNormalize at h ⊢
  by_cases hle : d ≤ daysInMonth y m
  · rw [if_pos hle]
  · rw [if_neg hle] at h ⊢
    by_cases hm : m = 12
    · rw [if_pos hm] at h
      simp only at h
      omega
    · rw [if_neg hm] at h
      simp only at h
      omega

/-- Claim C5: on inputs of the form `D/M/YYYY`, `DD/MM/YYYY`, `D-M-YYYY`
or `DD-MM-YYYY` with day in 1..31, month in 1..12 and year above 1000, the
formatter interprets the string day-month-year and returns the
UTC-constructed date as `YYYY-MM-DD` whenever the constructed date's UTC
day-of-month equals the parsed day; and `"31/02/2024"`, whose construction
rolls over, falls through to the engine parser, which rejects it (its
first component exceeds 12 as a month), yielding the empty string. -/
theorem formatDate_dmy_priority :
    (∀ (jsParse : String → Option String) (s : String) (day month year : Nat),
      dmyMatch s.data = some (day, month, year) →
      1 ≤ day → day ≤ 31 → 1 ≤ month → month ≤ 12 → 1000 < year →
      (utcNormalize year month day).2.2 = day →
      formatDateToYyyyMmDd jsParse (some s) = isoString year month day) ∧
    (∀ jsParse : String → Option String, jsParse "31/02/2024" = none →
      formatDateToYyyyMmDd jsParse (some "31/02/2024") = "") := by
  constructor
  · intro jsParse s day month year hmatch h1 h31 hm1 hm12 hy hday
    have hne : s ≠ "" := by
      intro hcon
      subst hcon
      rw [show ("" : String).data = ([] : List Char) from rfl] at hmatch
      rw [show dmyMatch ([] : List Char) = none from rfl] at hmatch
      exact Option.noConfusion hmatch
    have htrim : trimJs s.data = s.data := trimJs_eq_self_of_dmy _ _ _ _ hmatch
    have hiso : isoMatch s.data = false := isoMatch_false_of_dmy _ _ _ _ hmatch
    have hnorm : utcNormalize year month day = (year, month, day) :=
      utcNormalize_eq_self year month day hday
    unfold formatDateToYyyyMmDd
    simp only [hne, if_false, htrim, hiso, Bool.false_and, Bool.false_eq_true,
      hmatch, hnorm]
    rw [if_pos ⟨hy, hm1, hm12, h1, h31⟩]
    simp
  · intro jsParse hjs
    have hred : formatDateToYyyyMmDd jsParse (some "31/02/2024") =
        (jsParse "31/02/2024").getD "" := rfl
    rw [hred, hjs]
    rfl

/-- Witness for C5 at the spec's own examples (with an engine parser that
rejects both strings, as real engines do for `"31/02/2024"`; the positive
case never consults it). -/
theorem formatDate_dmy_priority_witness :
    formatDateToYyyyMmDd (fun _ => none) (some "05/03/2024") = "2024-03-05" ∧
    formatDateToYyyyMmDd (fun _ => none) (some "31/02/2024") = "" :=
  ⟨(formatDate_dmy_priority.1 (fun _ => none) "05/03/2024" 5 3 2024 (by decide)
      (by decide) (by decide) (by decide) (by decide) (by decide)
      (by decide)).trans (by decide),
   formatDate_dmy_priority.2 (fun _ => none) rfl⟩

/-! ### Claim C3: header detection -/

/-- Join lines with a newline separator (left inverse of `splitOnChar` on
newline-free lines). -/
def joinNl : List (List Char) → List Char
  | [] => []
  | [l] => l
  | l :: ls => l ++ '\n' :: joinNl ls

theorem splitOnChar_ne_nil (sep : Char) (l : List Char) :
    splitOnChar sep l ≠ [] := by
  cases l with
  | nil => simp [splitOnChar]
  | cons c rest =>
    unfold splitOnChar
    split
    · simp
    · split <;> simp

theorem splitOnChar_of_not_mem (sep : Char) (l : List Char) (h : sep ∉ l) :
    splitOnChar sep l = [l] := by
  induction l with
  | nil => rfl
  | cons c rest ih =>
    have h₁ : sep ∉ rest := fun hc => h (List.mem_cons_of_mem _ hc)
    have h₂ : ¬c = sep := fun hc => h (hc ▸ List.mem_cons_self _ _)
    simp [splitOnChar, ih h₁, h₂]

theorem splitOnChar_append_sep (sep : Char) (a b : List Char) (h : sep ∉ a) :
    splitOnChar sep (a ++ sep :: b) = a :: splitOnChar sep b := by
  induction a with
  | nil =>
    simp only [List.nil_append]
    cases hsb : splitOnChar sep b with
    | nil => exact absurd hsb (splitOnChar_ne_nil sep b)
    | cons x xs => simp [splitOnChar, hsb]
  | cons c a' ih =>
    simp only [List.cons_append]
    have h₁ : sep ∉ a' := fun hc => h (List.mem_cons_of_mem _ hc)
    have h₂ : ¬c = sep := fun hc => h (hc ▸ List.mem_cons_self _ _)
    simp [splitOnChar, ih h₁, h₂]

theorem splitOnChar_joinNl (ls : List (List Char)) (hne : ls ≠ [])
    (hfree : ∀ l ∈ ls, '\n' ∉ l) :
    splitOnChar '\n' (joinNl ls) = ls := by
  induction ls with
  | nil => exact absurd rfl hne
  | cons l ls' ih =>
    cases ls' with
    | nil =>
      exact splitOnChar_of_not_mem '\n' l (hfree l (List.mem_cons_self _ _))
    | cons r rs =>
      show splitOnChar '\n' (l ++ '\n' :: joinNl (r :: rs)) = l :: r :: rs
      rw [splitOnChar_append_sep '\n' l _ (hfree l (List.mem_cons_self _ _))]
      rw [ih (by simp) (fun x hx => hfree x (List.mem_cons_of_mem _ hx))]

/-- Claim C3 counterexample: a first line whose *first* field lacks
`"game provider"` but whose second field contains it is skipped as a
header (the code tests the whole line), even though it is a well-formed
data line that would have contributed the key `"x"`. -/
theorem parse_header_whole_line_cex :
    containsSub "game provider".data
        (((splitOnChar '\t' "x\tThe Game Provider\ty\tz\tw\tc1".data).getD 0
          []).map toLowerJs) = false ∧
    6 ≤ (splitOnChar '\t' "x\tThe Game Provider\ty\tz\tw\tc1".data).length ∧
    mapGet (parseProviderData "x\tThe Game Provider\ty\tz\tw\tc1\na\tP\t\t\t\tc2")
      (normalizeGameName (some "x")) = none ∧
    mapGet (parseProviderData "x\tThe Game Provider\ty\tz\tw\tc1\na\tP\t\t\t\tc2")
      (normalizeGameName (some "a")) = some ⟨"P", none, none, some "c2"⟩ := by
  decide

/-- Claim C3 (amended): the first line is treated as a header and skipped
if and only if it is non-empty and contains the substring
`"game provider"` case-insensitively *anywhere in the whole line*
(not just in its first tab-separated field); all remaining lines are
folded into the table. -/
theorem parse_header_whole_line (first : List Char) (rest : List (List Char))
    (hfirst : '\n' ∉ first) (hrest : ∀ l ∈ rest, '\n' ∉ l) :
    parseProviderData ⟨joinNl (first :: rest)⟩ =
      (if isHeaderLine first then rest else first :: rest).foldl parseLine [] := by
  unfold parseProviderData
  have hdata : (String.mk (joinNl (first :: rest))).data = joinNl (first :: rest) :=
    rfl
  rw [hdata]
  rw [splitOnChar_joinNl (first :: rest) (by simp)
    (by intro l hl; rcases List.mem_cons.mp hl with h | h
        · exact h ▸ hfirst
        · exact hrest l h)]

/-- Witness for the amended C3 theorem: a header-like line anywhere-match
is skipped; a first line without the substring is parsed as data. -/
theorem parse_header_whole_line_witness :
    parseProviderData ⟨joinNl ["x\tGame Provider here\ty\tz\tw\tc".data,
        "a\tP\t\t\t\tc2".data]⟩ =
      ["a\tP\t\t\t\tc2".data].foldl parseLine [] ∧
    parseProviderData ⟨joinNl ["a\tP\t\t\t\tc2".data]⟩ =
      ["a\tP\t\t\t\tc2".data].foldl parseLine [] :=
  ⟨by
    rw [parse_header_whole_line "x\tGame Provider here\ty\tz\tw\tc".data
      ["a\tP\t\t\t\tc2".data] (by decide) (by decide)]
    rw [if_pos (by decide)],
   by
    rw [parse_header_whole_line "a\tP\t\t\t\tc2".data [] (by decide)
      (by simp)]
    rw [if_neg (by decide)]⟩

/-! ### Claims C1 and C4: normalizer algebra -/

theorem toLowerJs_fix_of_not_upper {c : Char}
    (h : ¬(65 ≤ c.toNat ∧ c.toNat ≤ 90)) : toLowerJs c = c := by
  unfold toLowerJs
  rw [if_neg h]

theorem toLowerJs_idem (c : Char) : toLowerJs (toLowerJs c) = toLowerJs c := by
  by_cases h : 65 ≤ c.toNat ∧ c.toNat ≤ 90
  · have hval : (Char.ofNat (c.toNat + 32)).toNat = c.toNat + 32 := by
      have h97 : 97 ≤ c.toNat + 32 := by omega
      have h122 : c.toNat + 32 ≤ 122 := by omega
      set n := c.toNat + 32 with hn
      interval_cases n <;> decide
    unfold toLowerJs
    rw [if_pos h]
    rw [if_neg (by omega)]
  · rw [toLowerJs_fix_of_not_upper h, toLowerJs_fix_of_not_upper h]

theorem toLowerJs_space : toLowerJs ' ' = ' ' := by decide

/-- Members of the collapsed list are the space character or members of
the original list. -/
theorem mem_collapseWs {c : Char} : ∀ {l : List Char},
    c ∈ collapseWs l → c = ' ' ∨ c ∈ l := by
  intro l
  induction l with
  | nil => intro h; exact absurd h (by simp [collapseWs])
  | cons c₁ rest ih =>
    intro h
    cases rest with
    | nil =>
      unfold collapseWs at h
      split at h
      · exact Or.inl (List.mem_singleton.mp h)
      · exact Or.inr (List.mem_singleton.mp h ▸ List.mem_cons_self _ _)
    | cons c₂ rest' =>
      unfold collapseWs at h
      split at h
      · split at h
        · rcases ih h with h | h
          · exact Or.inl h
          · exact Or.inr (List.mem_cons_of_mem _ h)
        · rcases List.mem_cons.mp h with h | h
          · exact Or.inl h
          · rcases ih h with h | h
            · exact Or.inl h
            · exact Or.inr (List.mem_cons_of_mem _ h)
      · rcases List.mem_cons.mp h with h | h
        · exact Or.inr (h ▸ List.mem_cons_self _ _)
        · rcases ih h with h | h
          · exact Or.inl h
          · exact Or.inr (List.mem_cons_of_mem _ h)

theorem mem_ltrimJs {c : Char} {l : List Char} (h : c ∈ ltrimJs l) : c ∈ l :=
  (List.dropWhile_sublist _).mem h

theorem mem_rtrimJs {c : Char} {l : List Char} (h : c ∈ rtrimJs l) : c ∈ l := by
  unfold rtrimJs at h
  rw [List.mem_reverse] at h
  exact List.mem_reverse.mp ((List.dropWhile_sublist _).mem h)

theorem mem_trimJs {c : Char} {l : List Char} (h : c ∈ trimJs l) : c ∈ l :=
  mem_ltrimJs (mem_rtrimJs h)

theorem mem_stripSym {c : Char} {l : List Char} (h : c ∈ stripSym l) : c ∈ l :=
  List.mem_of_mem_filter h

theorem rtrimJs_idem (l : List Char) : rtrimJs (rtrimJs l) = rtrimJs l := by
  unfold rtrimJs
  rw [List.reverse_reverse, List.dropWhile_idempotent]

theorem rtrimJs_prefix (l : List Char) : rtrimJs l <+: l := by
  have h := List.dropWhile_suffix (l := l.reverse) isJsSpace
  have h₂ := List.reverse_prefix.mpr (by simpa using h :
    List.dropWhile isJsSpace l.reverse <:+ l.reverse)
  unfold rtrimJs
  rwa [List.reverse_reverse] at h₂

theorem ltrimJs_rtrimJs_ltrimJs (l : List Char) :
    ltrimJs (rtrimJs (ltrimJs l)) = rtrimJs (ltrimJs l) := by
  cases hu : ltrimJs l with
  | nil => simp [rtrimJs, ltrimJs]
  | cons c rest =>
    have hc : isJsSpace c = false := by
      have := List.head?_dropWhile_not isJsSpace l
      unfold ltrimJs at hu
      rw [hu] at this
      simpa using this
    have hpre := rtrimJs_prefix (c :: rest)
    cases hr : rtrimJs (c :: rest) with
    | nil => simp [ltrimJs]
    | cons c' rest' =>
      rw [hr] at hpre
      have hcc : c' = c := by
        obtain ⟨t, ht⟩ := hpre
        exact (List.cons.injEq _ _ _ _ ▸ ht).1
      unfold ltrimJs
      rw [List.dropWhile_cons]
      simp [hcc, hc]

theorem trimJs_idem (l : List Char) : trimJs (trimJs l) = trimJs l := by
  unfold trimJs
  rw [ltrimJs_rtrimJs_ltrimJs, rtrimJs_idem]

/-- Scanning with no occurrence returns the input unchanged. -/
theorem removeCopyGo_of_not_hasCopy :
    ∀ (l acc : List Char), hasCopy l = false →
      removeCopyGo acc l = acc.reverse ++ l := by
  intro l
  induction l with
  | nil => intro acc _; simp [removeCopyGo]
  | cons c rest ih =>
    intro acc h
    unfold hasCopy at h
    rw [Bool.or_eq_false_iff] at h
    obtain ⟨h₁, h₂⟩ := h
    unfold removeCopyGo
    cases hct : copyTail? (c :: rest) with
    | some r =>
      rw [hct] at h₁
      simp at h₁
    | none =>
      simp only [hct]
      rw [ih (c :: acc) h₂]
      simp

theorem removeCopy_of_not_hasCopy {l : List Char} (h : hasCopy l = false) :
    removeCopy l = l := by
  unfold removeCopy
  rw [removeCopyGo_of_not_hasCopy l [] h]
  simp

theorem stripVer_of_matchVer_none {l : List Char} (h : matchVer? l = none) :
    stripVer l = l := by
  unfold stripVer
  rw [h]
  rfl

/-- A character is acceptable in collapsed text when it is not whitespace
or is the plain space. -/
def spaceOk (c : Char) : Bool := !isJsSpace c || c == ' '

/-- No two adjacent whitespace characters. -/
def pairsOk : List Char → Bool
  | [] => true
  | [_] => true
  | a :: b :: rest => !(isJsSpace a && isJsSpace b) && pairsOk (b :: rest)

theorem pairsOk_tail {c : Char} {l : List Char} (h : pairsOk (c :: l) = true) :
    pairsOk l = true := by
  cases l with
  | nil => rfl
  | cons b rest =>
    unfold pairsOk at h
    exact Bool.and_elim_right h

theorem pairsOk_dropWhile (p : Char → Bool) :
    ∀ l : List Char, pairsOk l = true → pairsOk (l.dropWhile p) = true := by
  intro l
  induction l with
  | nil => intro h; exact h
  | cons c rest ih =>
    intro h
    rw [List.dropWhile_cons]
    split
    · exact ih (pairsOk_tail h)
    · exact h

theorem pairsOk_append_singleton : ∀ (l : List Char) (x : Char),
    pairsOk (l ++ [x]) =
      (pairsOk l &&
        match l.getLast? with
        | none => true
        | some y => !(isJsSpace y && isJsSpace x)) := by
  intro l
  induction l with
  | nil => intro x; rfl
  | cons a l' ih =>
    intro x
    cases l' with
    | nil => simp [pairsOk, Bool.and_comm]
    | cons b r =>
      have hlast : (a :: b :: r).getLast? = (b :: r).getLast? := by
        simp [List.getLast?_cons_cons]
      calc pairsOk ((a :: b :: r) ++ [x])
          = (!(isJsSpace a && isJsSpace b) && pairsOk ((b :: r) ++ [x])) := rfl
        _ = (!(isJsSpace a && isJsSpace b) &&
              (pairsOk (b :: r) &&
                match (b :: r).getLast? with
                | none => true
                | some y => !(isJsSpace y && isJsSpace x))) := by rw [ih]
        _ = _ := by rw [hlast]; simp [pairsOk, Bool.and_assoc]

theorem pairsOk_reverse : ∀ l : List Char, pairsOk l.reverse = pairsOk l := by
  intro l
  induction l with
  | nil => rfl
  | cons c rest ih =>
    rw [List.reverse_cons, pairsOk_append_singleton, ih]
    cases rest with
    | nil => rfl
    | cons b r =>
      rw [List.getLast?_reverse]
      simp only [List.head?_cons, pairsOk]
      rw [Bool.and_comm (isJsSpace b) (isJsSpace c)]
      exact Bool.and_comm _ _

theorem collapseWs_cons_head {c : Char} (rest : List Char)
    (h : isJsSpace c = false) : ∃ Y, collapseWs (c :: rest) = c :: Y := by
  cases rest with
  | nil => exact ⟨[], by simp [collapseWs, h]⟩
  | cons b r => exact ⟨collapseWs (b :: r), by simp [collapseWs, h]⟩

theorem collapseWs_ok : ∀ l : List Char,
    (collapseWs l).all spaceOk = true ∧ pairsOk (collapseWs l) = true := by
  intro l
  induction l with
  | nil => exact ⟨rfl, rfl⟩
  | cons c₁ rest ih =>
    cases rest with
    | nil =>
      by_cases h : isJsSpace c₁ = true
      · simp [collapseWs, h, spaceOk, pairsOk]
      · simp only [Bool.not_eq_true] at h
        simp [collapseWs, h, spaceOk, pairsOk]
    | cons c₂ rest' =>
      by_cases h₁ : isJsSpace c₁ = true
      · by_cases h₂ : isJsSpace c₂ = true
        · unfold collapseWs
          rw [if_pos h₁, if_pos h₂]
          exact ih
        · simp only [Bool.not_eq_true] at h₂
          unfold collapseWs
          rw [if_pos h₁, if_neg (by simp [h₂])]
          obtain ⟨Y, hY⟩ := collapseWs_cons_head rest' h₂
          refine ⟨by simp [spaceOk, ih.1], ?_⟩
          rw [hY]
          rw [hY] at ih
          show (!(isJsSpace ' ' && isJsSpace c₂) && pairsOk (c₂ :: Y)) = true
          simp [h₂, ih.2]
      · simp only [Bool.not_eq_true] at h₁
        unfold collapseWs
        rw [if_neg (by simp [h₁])]
        refine ⟨by simp [spaceOk, h₁, ih.1], ?_⟩
        cases hX : collapseWs (c₂ :: rest') with
        | nil => rfl
        | cons x Y =>
          rw [hX] at ih
          show (!(isJsSpace c₁ && isJsSpace x) && pairsOk (x :: Y)) = true
          simp [h₁, ih.2]

theorem collapseWs_eq_self : ∀ l : List Char,
    l.all spaceOk = true → pairsOk l = true → collapseWs l = l := by
  intro l
  induction l with
  | nil => intro _ _; rfl
  | cons c₁ rest ih =>
    intro hall hpairs
    have hc₁ : spaceOk c₁ = true := by
      have := List.all_eq_true.mp hall c₁ (List.mem_cons_self _ _)
      exact this
    have htail : rest.all spaceOk = true := by
      apply List.all_eq_true.mpr
      intro x hx
      exact List.all_eq_true.mp hall x (List.mem_cons_of_mem _ hx)
    cases rest with
    | nil =>
      by_cases h : isJsSpace c₁ = true
      · have hsp : c₁ = ' ' := by
          unfold spaceOk at hc₁
          rw [h] at hc₁
          simpa using hc₁
        simp [collapseWs, h, hsp]
      · simp only [Bool.not_eq_true] at h
        simp [collapseWs, h]
    | cons c₂ rest' =>
      have hpt : pairsOk (c₂ :: rest') = true := pairsOk_tail hpairs
      by_cases h₁ : isJsSpace c₁ = true
      · have hnp : isJsSpace c₂ = false := by
          unfold pairsOk at hpairs
          rcases Bool.and_eq_true_iff.mp hpairs with ⟨hl, _⟩
          rw [h₁] at hl
          simpa using hl
        have hsp : c₁ = ' ' := by
          unfold spaceOk at hc₁
          rw [h₁] at hc₁
          simpa using hc₁
        unfold collapseWs
        rw [if_pos h₁, if_neg (by simp [hnp])]
        rw [ih htail hpt, hsp]
      · simp only [Bool.not_eq_true] at h₁
        unfold collapseWs
        rw [if_neg (by simp [h₁])]
        rw [ih htail hpt]

theorem pairsOk_rtrimJs {l : List Char} (h : pairsOk l = true) :
    pairsOk (rtrimJs l) = true := by
  unfold rtrimJs
  rw [pairsOk_reverse]
  exact pairsOk_dropWhile isJsSpace _ (by rwa [pairsOk_reverse])

theorem pairsOk_trimJs {l : List Char} (h : pairsOk l = true) :
    pairsOk (trimJs l) = true :=
  pairsOk_rtrimJs (pairsOk_dropWhile isJsSpace _ h)

/-- Collapsing is the identity on the (already collapsed, then trimmed)
output of the normalizer pipeline. -/
theorem collapseWs_trimJs_collapseWs (w : List Char) :
    collapseWs (trimJs (collapseWs w)) = trimJs (collapseWs w) := by
  apply collapseWs_eq_self
  · apply List.all_eq_true.mpr
    intro x hx
    exact List.all_eq_true.mp (collapseWs_ok w).1 x (mem_trimJs hx)
  · exact pairsOk_trimJs (collapseWs_ok w).2

/-- Every character of the pipeline output is fixed by lowercasing. -/
theorem map_toLowerJs_normList (l : List Char) :
    (normList l).map toLowerJs = normList l := by
  have hfix : ∀ c ∈ normList l, toLowerJs c = c := by
    intro c hc
    unfold normList at hc
    have hc₂ := mem_trimJs hc
    rcases mem_collapseWs hc₂ with h | h
    · rw [h]
      exact toLowerJs_space
    · obtain ⟨d, _, hd⟩ := List.mem_map.mp (mem_stripSym h)
      rw [← hd]
      exact toLowerJs_idem d
  calc (normList l).map toLowerJs = (normList l).map id :=
        List.map_congr_left hfix
    _ = normList l := List.map_id _

/-- The pipeline output contains no trademark symbols. -/
theorem stripSym_normList (l : List Char) :
    stripSym (normList l) = normList l := by
  apply List.filter_eq_self.mpr
  intro c hc
  unfold normList at hc
  have hc₂ := mem_trimJs hc
  rcases mem_collapseWs hc₂ with h | h
  · rw [h]
    decide
  · unfold stripSym at h
    exact (List.mem_filter.mp h).2

/-- Conditional idempotence of the normalizer pipeline: a second pass is
the identity when the first pass's output has no residual `"(copy)"`
occurrence and no residual version suffix. -/
theorem normList_idem (l : List Char)
    (hcopy : hasCopy (normList l) = false)
    (hver : matchVer? (normList l) = none) :
    normList (normList l) = normList l := by
  have h1 : trimJs (normList l) = normList l := by
    unfold normList
    exact trimJs_idem _
  have h6 : collapseWs (normList l) = normList l := by
    unfold normList
    exact collapseWs_trimJs_collapseWs _
  show trimJs (collapseWs (stripSym
      ((stripVer (removeCopy (trimJs (normList l)))).map toLowerJs))) = normList l
  rw [h1, removeCopy_of_not_hasCopy hcopy, stripVer_of_matchVer_none hver,
    map_toLowerJs_normList, stripSym_normList, h6, h1]

/-- Claim C1 counterexample: the normalizer is not idempotent.  A second
`"(copy)"` occurrence survives the first pass and is removed by the second
(`"(copy)(copy)"`), and stripping the `™` sign can expose a fresh `" v94"`
suffix that only the second pass removes (`"a v™94"`). -/
theorem normalize_not_idempotent_cex :
    (normalizeGameName (some "(copy)(copy)") = "(copy)" ∧
     normalizeGameName (some (normalizeGameName (some "(copy)(copy)"))) = "" ∧
     normalizeGameName (some (normalizeGameName (some "(copy)(copy)"))) ≠
       normalizeGameName (some "(copy)(copy)")) ∧
    (normalizeGameName (some "a v™94") = "a v94" ∧
     normalizeGameName (some (normalizeGameName (some "a v™94"))) = "a" ∧
     normalizeGameName (some (normalizeGameName (some "a v™94"))) ≠
       normalizeGameName (some "a v™94")) := by decide

/-- Claim C1 (amended): null and empty inputs normalize to the empty
string, and `normalize(normalize(x)) == normalize(x)` for every input `x`
whose normalized form contains no case-insensitive `"(copy)"` occurrence
and does not end in a whitespace-preceded `94%`/`v94` version suffix. -/
theorem normalize_idempotent_conditional :
    (normalizeGameName none = "" ∧ normalizeGameName (some "") = "") ∧
    ∀ x : Option String,
      hasCopy (normalizeGameName x).data = false →
      matchVer? (normalizeGameName x).data = none →
      normalizeGameName (some (normalizeGameName x)) = normalizeGameName x := by
  refine ⟨⟨rfl, rfl⟩, ?_⟩
  intro x hcopy hver
  match x with
  | none => rfl
  | some s =>
    by_cases hs : s = ""
    · rw [hs]
      rfl
    · have hx : normalizeGameName (some s) = ⟨normList s.data⟩ := by
        show (if s = "" then "" else (⟨normList s.data⟩ : String)) = ⟨normList s.data⟩
        rw [if_neg hs]
      rw [hx] at hcopy hver ⊢
      by_cases hn : (⟨normList s.data⟩ : String) = ""
      · rw [hn]
        rfl
      · show (if (⟨normList s.data⟩ : String) = "" then ""
          else (⟨normList (⟨normList s.data⟩ : String).data⟩ : String)) =
            ⟨normList s.data⟩
        rw [if_neg hn]
        have hdata : (⟨normList s.data⟩ : String).data = normList s.data := rfl
        rw [hdata]
        have := normList_idem s.data hcopy hver
        rw [this]

/-- Witness for the amended C1 theorem at a concrete input whose
normalized form is stable. -/
theorem normalize_idempotent_conditional_witness :
    normalizeGameName (some (normalizeGameName (some "Book of Ra (copy)"))) =
      normalizeGameName (some "Book of Ra (copy)") :=
  normalize_idempotent_conditional.2 (some "Book of Ra (copy)") (by decide)
    (by decide)

/-- Characterization of a successful `"(copy)"` prefix match. -/
theorem copyTail?_eq_some_iff (l r : List Char) :
    copyTail? l = some r ↔
      ∃ b c d e, l = '(' :: b :: c :: d :: e :: ')' :: r ∧
        toLowerJs b = 'c' ∧ toLowerJs c = 'o' ∧ toLowerJs d = 'p' ∧
        toLowerJs e = 'y' := by
  constructor
  · intro h
    unfold copyTail? at h
    split at h
    · next a b c d e f rest =>
      split at h
      · next hcond =>
        obtain ⟨ha, hb, hc, hd, he, hf⟩ := hcond
        exact ⟨b, c, d, e, by rw [ha, hf, Option.some.inj h], hb, hc, hd, he⟩
      · exact absurd h (by simp)
    · exact absurd h (by simp)
  · rintro ⟨b, c, d, e, hdec, hb, hc, hd, he⟩
    rw [hdec]
    show (if '(' = '(' ∧ toLowerJs b = 'c' ∧ toLowerJs c = 'o' ∧
        toLowerJs d = 'p' ∧ toLowerJs e = 'y' ∧ ')' = ')' then some r
      else none) = some r
    rw [if_pos ⟨rfl, hb, hc, hd, he, rfl⟩]

/-- A failed match cannot be completed across a following space: either the
pattern fits inside `u` (contradicting the failure) or it would have to
match the space against a pattern character. -/
theorem copyTail?_append_space (u w : List Char) (h : copyTail? u = none) :
    copyTail? (u ++ ' ' :: w) = none := by
  cases hct : copyTail? (u ++ ' ' :: w) with
  | none => rfl
  | some r =>
    exfalso
    obtain ⟨b, c, d, e, hdec, hb, hc, hd, he⟩ := (copyTail?_eq_some_iff _ _).mp hct
    match u, hdec with
    | [], hdec =>
      simp only [List.nil_append, List.cons.injEq] at hdec
      exact absurd hdec.1 (by decide)
    | [x₁], hdec =>
      simp only [List.cons_append, List.nil_append, List.cons.injEq] at hdec
      rw [← hdec.2.1] at hb
      exact absurd hb (by decide)
    | [x₁, x₂], hdec =>
      simp only [List.cons_append, List.nil_append, List.cons.injEq] at hdec
      rw [← hdec.2.2.1] at hc
      exact absurd hc (by decide)
    | [x₁, x₂, x₃], hdec =>
      simp only [List.cons_append, List.nil_append, List.cons.injEq] at hdec
      rw [← hdec.2.2.2.1] at hd
      exact absurd hd (by decide)
    | [x₁, x₂, x₃, x₄], hdec =>
      simp only [List.cons_append, List.nil_append, List.cons.injEq] at hdec
      rw [← hdec.2.2.2.2.1] at he
      exact absurd he (by decide)
    | [x₁, x₂, x₃, x₄, x₅], hdec =>
      simp only [List.cons_append, List.nil_append, List.cons.injEq] at hdec
      exact absurd hdec.2.2.2.2.2.1 (by decide)
    | x₁ :: x₂ :: x₃ :: x₄ :: x₅ :: x₆ :: u', hdec =>
      simp only [List.cons_append, List.cons.injEq] at hdec
      obtain ⟨h₁, h₂, h₃, h₄, h₅, h₆, _⟩ := hdec
      rw [(copyTail?_eq_some_iff (x₁ :: x₂ :: x₃ :: x₄ :: x₅ :: x₆ :: u') u').mpr
        ⟨x₂, x₃, x₄, x₅, by rw [h₁, h₆], h₂ ▸ hb, h₃ ▸ hc, h₄ ▸ hd, h₅ ▸ he⟩] at h
      exact Option.noConfusion h

/-- Scanning a copy-free prefix `s` followed by `" (copy)"` removes that
occurrence together with the trailing whitespace of `s`. -/
theorem removeCopyGo_copy (t : List Char) :
    ∀ (s acc : List Char), hasCopy s = false →
      removeCopyGo acc (s ++ ' ' :: '(' :: 'c' :: 'o' :: 'p' :: 'y' :: ')' :: t) =
        (List.dropWhile isJsSpace (s.reverse ++ acc)).reverse ++ t := by
  intro s
  induction s with
  | nil =>
    intro acc _
    have h₁ : copyTail?
        (' ' :: '(' :: 'c' :: 'o' :: 'p' :: 'y' :: ')' :: t) = none := rfl
    have h₂ : copyTail? ('(' :: 'c' :: 'o' :: 'p' :: 'y' :: ')' :: t) = some t :=
      rfl
    show removeCopyGo acc
        (' ' :: '(' :: 'c' :: 'o' :: 'p' :: 'y' :: ')' :: t) = _
    unfold removeCopyGo
    simp only [h₁]
    unfold removeCopyGo
    simp only [h₂]
    show (List.dropWhile isJsSpace (' ' :: acc)).reverse ++ t = _
    rw [List.dropWhile_cons]
    simp [isJsSpace]
  | cons ch s' ih =>
    intro acc h
    unfold hasCopy at h
    rw [Bool.or_eq_false_iff] at h
    obtain ⟨h₁, h₂⟩ := h
    have hnone : copyTail? (ch :: s') = none := by
      cases hcc : copyTail? (ch :: s') with
      | none => rfl
      | some r =>
        rw [hcc] at h₁
        exact absurd h₁ (by simp)
    have hspan : copyTail?
        ((ch :: s') ++ ' ' :: '(' :: 'c' :: 'o' :: 'p' :: 'y' :: ')' :: t) =
          none :=
      copyTail?_append_space _ _ hnone
    show removeCopyGo acc
        (ch :: (s' ++ ' ' :: '(' :: 'c' :: 'o' :: 'p' :: 'y' :: ')' :: t)) = _
    unfold removeCopyGo
    rw [show ch :: (s' ++ ' ' :: '(' :: 'c' :: 'o' :: 'p' :: 'y' :: ')' :: t) =
      (ch :: s') ++ ' ' :: '(' :: 'c' :: 'o' :: 'p' :: 'y' :: ')' :: t from rfl]
    simp only [hspan]
    rw [ih (ch :: acc) h₂]
    congr 2
    simp

/-- `replace(/\s*\(copy\)/i, '')` removes the first occurrence wherever it
sits, together with the whitespace run before it. -/
theorem removeCopy_first_occurrence (s t : List Char) (h : hasCopy s = false) :
    removeCopy (s ++ ' ' :: '(' :: 'c' :: 'o' :: 'p' :: 'y' :: ')' :: t) =
      rtrimJs s ++ t := by
  unfold removeCopy
  rw [removeCopyGo_copy t s [] h, List.append_nil]
  rfl

theorem ltrimJs_of_trimJs_eq {l : List Char} (h : trimJs l = l) :
    ltrimJs l = l := by
  have hsuf : ltrimJs l <:+ l := List.dropWhile_suffix isJsSpace
  apply List.IsSuffix.eq_of_length hsuf
  have h₁ : (trimJs l).length ≤ (ltrimJs l).length := by
    have := rtrimJs_prefix (ltrimJs l)
    exact this.length_le
  have h₂ : (ltrimJs l).length ≤ l.length := hsuf.length_le
  rw [h] at h₁
  omega

theorem rtrimJs_of_trimJs_eq {l : List Char} (h : trimJs l = l) :
    rtrimJs l = l := by
  have hl : ltrimJs l = l := ltrimJs_of_trimJs_eq h
  have : trimJs l = rtrimJs (ltrimJs l) := rfl
  rw [hl] at this
  rw [← this, h]

theorem dropWhile_cons_eq_self {p : Char → Bool} {c : Char} {l : List Char}
    (h : List.dropWhile p (c :: l) = c :: l) : p c = false := by
  cases hpc : p c with
  | false => rfl
  | true =>
    rw [List.dropWhile_cons, if_pos hpc] at h
    have := (List.dropWhile_sublist (l := l) p).length_le
    have hlen := congrArg List.length h
    simp at hlen
    omega

/-- Claim C4 counterexample: an interior `" (copy)"` is removed, not
preserved — the normalized output of `"abc (copy) def"` contains no
`"(copy)"` occurrence at all. -/
theorem normalize_interior_copy_cex :
    normalizeGameName (some "abc (copy) def") = "abc def" ∧
    cleanGameNameForDisplay (some "abc (copy) def") = "abc def" ∧
    hasCopy (normalizeGameName (some "abc (copy) def")).data = false := by decide

/-- Claim C4 (amended): the copy-removal step of the normalizer removes
the *first* case-insensitive `\s*\(copy\)` occurrence wherever it sits —
interior occurrences included — together with the whitespace run before
it; in particular a sole trailing `" (copy)"` is removed, so for any
trimmed input with no other occurrence,
`normalize(s ++ " (copy)") = normalize(s)`. -/
theorem removeCopy_anywhere :
    (∀ s t : List Char, hasCopy s = false →
      removeCopy (s ++ ' ' :: '(' :: 'c' :: 'o' :: 'p' :: 'y' :: ')' :: t) =
        rtrimJs s ++ t) ∧
    (∀ s : String, hasCopy s.data = false → trimJs s.data = s.data →
      normalizeGameName (some (s ++ " (copy)")) = normalizeGameName (some s)) := by
  refine ⟨removeCopy_first_occurrence, ?_⟩
  intro s hc ht
  by_cases hs : s = ""
  · subst hs
    decide
  · have hne₂ : s ++ " (copy)" ≠ "" := by
      intro hcon
      have := congrArg String.data hcon
      rw [show (s ++ " (copy)").data = s.data ++ " (copy)".data from rfl] at this
      simp at this
    have hL : normalizeGameName (some (s ++ " (copy)")) =
        ⟨normList ((s ++ " (copy)").data)⟩ := by
      show (if s ++ " (copy)" = "" then ""
        else (⟨normList ((s ++ " (copy)").data)⟩ : String)) = _
      rw [if_neg hne₂]
    have hR : normalizeGameName (some s) = ⟨normList s.data⟩ := by
      show (if s = "" then "" else (⟨normList s.data⟩ : String)) = _
      rw [if_neg hs]
    rw [hL, hR]
    have happ : (s ++ " (copy)").data =
        s.data ++ ' ' :: '(' :: 'c' :: 'o' :: 'p' :: 'y' :: ')' :: [] := rfl
    -- the combined string needs no trimming
    have htrim₂ : trimJs (s.data ++ ' ' :: '(' :: 'c' :: 'o' :: 'p' :: 'y' :: ')' :: []) =
        s.data ++ ' ' :: '(' :: 'c' :: 'o' :: 'p' :: 'y' :: ')' :: [] := by
      have hlt : ltrimJs (s.data ++ ' ' :: '(' :: 'c' :: 'o' :: 'p' :: 'y' :: ')' :: []) =
          s.data ++ ' ' :: '(' :: 'c' :: 'o' :: 'p' :: 'y' :: ')' :: [] := by
        cases hsd : s.data with
        | nil =>
          exact absurd (String.ext hsd) hs
        | cons c rest =>
          have hws : isJsSpace c = false := by
            apply dropWhile_cons_eq_self (p := isJsSpace)
            rw [← hsd]
            exact ltrimJs_of_trimJs_eq ht
          show List.dropWhile isJsSpace
            (c :: (rest ++ ' ' :: '(' :: 'c' :: 'o' :: 'p' :: 'y' :: ')' :: [])) = _
          rw [List.dropWhile_cons]
          simp [hws]
        
      show rtrimJs (ltrimJs _) = _
      rw [hlt]
      have hshape : s.data ++ ' ' :: '(' :: 'c' :: 'o' :: 'p' :: 'y' :: ')' :: [] =
          (s.data ++ [' ', '(', 'c', 'o', 'p', 'y']) ++ [')'] := by simp
      rw [hshape]
      rw [rtrimJs_eq_self_of_last _ _ (by decide)]
    -- now compute both pipelines down to a common form
    have hrm : removeCopy (s.data ++ ' ' :: '(' :: 'c' :: 'o' :: 'p' :: 'y' :: ')' :: []) =
        s.data := by
      rw [removeCopy_first_occurrence s.data [] hc, List.append_nil,
        rtrimJs_of_trimJs_eq ht]
    apply congrArg
    show trimJs (collapseWs (stripSym ((stripVer (removeCopy (trimJs
      ((s ++ " (copy)").data)))).map toLowerJs))) =
      trimJs (collapseWs (stripSym ((stripVer (removeCopy (trimJs s.data))).map
        toLowerJs)))
    rw [happ, htrim₂, hrm, ht, removeCopy_of_not_hasCopy hc]

/-- Witness for the amended C4 theorem: an interior occurrence
(`"Book (copy) of Ra"`) and a trailing occurrence (`"Book" ++ " (copy)"`). -/
theorem removeCopy_anywhere_witness :
    removeCopy "Book (copy) of Ra".data = "Book of Ra".data ∧
    normalizeGameName (some ("Book" ++ " (copy)")) =
      normalizeGameName (some "Book") :=
  ⟨by
    rw [show "Book (copy) of Ra".data =
      "Book".data ++ ' ' :: '(' :: 'c' :: 'o' :: 'p' :: 'y' :: ')' :: " of Ra".data
      from rfl]
    exact (removeCopy_anywhere.1 "Book".data " of Ra".data (by decide)).trans
      (by decide),
   removeCopy_anywhere.2 "Book" (by decide) (by decide)⟩
